import Mathlib

/-!
Verification of the Pareto-front analysis kernel of the `popper` repository:
dominance testing, non-dominated front extraction (2D/3D), front ranking
(peeling-based `_pareto_ranks` and counting-based `pareto_ranks_max`), and
grid-sampling hypervolume estimation.

Numeric coordinates are modelled by `ℚ`; all the kernel's decisions are
order comparisons, which `ℚ` reflects faithfully.
-/

namespace Popper

/-- A 3-objective point, as in `List[Tuple[float, float, float]]`. -/
abbrev P3 : Type := ℚ × ℚ × ℚ

/-- A 2-objective point, as in `List[Tuple[float, float]]`. -/
abbrev P2 : Type := ℚ × ℚ

/-- A point of arbitrary dimension, as one row of an `(N, D)` array. -/
abbrev Pt : Type := List ℚ

/-- `_dominates_max` from `pareto_dashboard_from_results.py`:
`np.all(a >= b) and np.any(a > b)`, elementwise over equal-length rows. -/
def dominates_max (a b : Pt) : Bool :=
  ((a.zip b).all fun p => p.2 ≤ p.1) && ((a.zip b).any fun p => p.2 < p.1)

/-- The 3D dominance condition used inside `_pareto_nondominated_mask`:
`(pj[0] >= pi[0] and pj[1] >= pi[1] and pj[2] >= pi[2]) and
 (pj[0] > pi[0] or pj[1] > pi[1] or pj[2] > pi[2])` (here `a` plays `pj`,
`b` plays `pi`). -/
def dom3 (a b : P3) : Bool :=
  (b.1 ≤ a.1 && b.2.1 ≤ a.2.1 && b.2.2 ≤ a.2.2) &&
  (b.1 < a.1 || b.2.1 < a.2.1 || b.2.2 < a.2.2)

/-- The 2D dominance condition used inside `_pareto_nondominated_mask_2d`. -/
def dom2 (a b : P2) : Bool :=
  (b.1 ≤ a.1 && b.2 ≤ a.2) && (b.1 < a.1 || b.2 < a.2)

/-- One step of the outer loop shared verbatim by `_pareto_nondominated_mask`
and `_pareto_nondominated_mask_2d` (their loop bodies are identical up to the
inlined dominance check `domf`): at index `i` with current point `pi`, skip
when `out[i]` is already false, otherwise clear `out[i]` when some other
point dominates `pi` (the inner loop with `break`). -/
def maskStepG {A : Type} (domf : A → A → Bool) (points : List A)
    (out : List Bool) (ipi : Nat × A) : List Bool :=
  if !(out.getD ipi.1 false) then out
  else if points.enum.any fun jpj => decide (jpj.1 ≠ ipi.1) && domf jpj.2 ipi.2 then
    out.set ipi.1 false
  else out

/-- `_pareto_nondominated_mask` from `generate_plots_table.py`: start from
`[True] * len(points)` and run the double loop with the 3D dominance check. -/
def pareto_nondominated_mask (points : List P3) : List Bool :=
  points.enum.foldl (maskStepG dom3 points) (List.replicate points.length true)

/-- `_pareto_nondominated_mask_2d` from `generate_plots_table.py`. -/
def pareto_nondominated_mask_2d (points : List P2) : List Bool :=
  points.enum.foldl (maskStepG dom2 points) (List.replicate points.length true)

/-- The front extracted by one iteration of the peeling loop of
`_pareto_ranks`: `cur_pts = [points[i] for i in remaining]`,
`mask = _pareto_nondominated_mask(cur_pts)`,
`front = [idx for idx, keep in zip(remaining, mask) if keep]`. -/
def peelFront (points : List P3) (remaining : List Nat) : List Nat :=
  let cur_pts := remaining.map fun i => points.getD i default
  let mask := pareto_nondominated_mask cur_pts
  (remaining.zip mask).filterMap fun p => if p.2 then some p.1 else none

theorem peelFront_subset {points : List P3} {remaining : List Nat} {x : Nat}
    (hx : x ∈ peelFront points remaining) : x ∈ remaining := by
  simp only [peelFront, List.mem_filterMap] at hx
  obtain ⟨⟨a, b⟩, hab, hx⟩ := hx
  have := List.of_mem_zip hab
  rcases hx with hx
  by_cases hb : b = true
  · simp [hb] at hx
    simpa [← hx] using this.1
  · simp [hb] at hx

/-- The `while remaining:` loop of `_pareto_ranks`, with the rank counter `r`,
the accumulated `ranks` array, and both `break` branches (empty front
fallback, and the `r > 50` safety cutoff checked after `r += 1`). -/
def peelGo (points : List P3) (remaining : List Nat) (ranks : List Int)
    (r : Nat) : List Int :=
  if remaining = [] then ranks
  else
    let front := peelFront points remaining
    if hfr : front = [] then
      remaining.foldl (fun rk idx => rk.set idx (r : Int)) ranks
    else
      let ranks2 := front.foldl (fun rk idx => rk.set idx (r : Int)) ranks
      let remaining2 := remaining.filter fun i => !front.contains i
      if r + 1 > 50 then
        remaining2.foldl (fun rk idx => rk.set idx ((r : Int) + 1)) ranks2
      else peelGo points remaining2 ranks2 (r + 1)
termination_by remaining.length
decreasing_by
  rcases h : peelFront points remaining with _ | ⟨x, rest⟩
  · exact absurd h hfr
  · have hxf : x ∈ peelFront points remaining := by rw [h]; exact List.mem_cons_self x rest
    have hxr : x ∈ remaining := peelFront_subset hxf
    refine List.length_filter_lt_length_iff_exists.mpr ⟨x, hxr, ?_⟩
    simp [h]

/-- `_pareto_ranks` from `generate_plots_table.py`: peeling-based Pareto
ranking for 3D maximization, with the 50-iteration safety cutoff. -/
def pareto_ranks (points : List P3) : List Int :=
  peelGo points (List.range points.length) (List.replicate points.length (-1)) 0

/-- `dominates[i]` built by the double loop of `pareto_ranks_max`: indices
`j ≠ i` with `_dominates_max(pts[i], pts[j])`, in increasing order. -/
def domList (pts : List Pt) (i : Nat) : List Nat :=
  (List.range pts.length).filter fun j =>
    decide (j ≠ i) && dominates_max (pts.getD i []) (pts.getD j [])

/-- `dominated_count[i]` built by the double loop of `pareto_ranks_max`: the
number of `j ≠ i` reaching the `elif _dominates_max(pts[j], pts[i])` branch. -/
def domCount (pts : List Pt) (i : Nat) : Nat :=
  ((List.range pts.length).filter fun j =>
    decide (j ≠ i) && !dominates_max (pts.getD i []) (pts.getD j []) &&
      dominates_max (pts.getD j []) (pts.getD i [])).length

/-- The inner `for q in dominates[p]` loop: decrement `dominated_count[q]`
and append `q` to `next_front` when the count reaches zero. State is
`(dominated_count, next_front)`. -/
def countInner (doms : List Nat) (st : List Int × List Nat) : List Int × List Nat :=
  doms.foldl (fun cn q =>
    let c := cn.1.getD q 0 - 1
    (cn.1.set q c, if c = 0 then cn.2 ++ [q] else cn.2)) st

/-- Processing one member `p` of `current_front`: `ranks[p] = rank`, then the
inner decrement loop. State is `(ranks, dominated_count, next_front)`. -/
def countRound (domf : Nat → List Nat) (r : Nat)
    (st : List Int × List Int × List Nat) (p : Nat) :
    List Int × List Int × List Nat :=
  let cn := countInner (domf p) (st.2.1, st.2.2)
  (st.1.set p (r : Int), cn.1, cn.2)

/-- The `while current_front:` loop of `pareto_ranks_max`. The Python loop
has no fuel parameter; the fuel here is a structural bound on the number of
rounds (shown sufficient below: each point joins `current_front` at most
once, so `n + 1` rounds always suffice). -/
def countLoop (domf : Nat → List Nat) :
    Nat → List Int → List Int → List Nat → Nat → List Int
  | 0, ranks, _, _, _ => ranks
  | fuel + 1, ranks, counts, current, r =>
    match current with
    | [] => ranks
    | _ :: _ =>
      let st := current.foldl (countRound domf r) (ranks, counts, [])
      countLoop domf fuel st.1 st.2.1 st.2.2 (r + 1)

/-- `pareto_ranks_max` from `pareto_dashboard_from_results.py`: fast
non-dominated sorting. Rank entries are always `≥ -1`, so the `np.nanmax`
in the final fallback is `foldl max (-1)`. -/
def pareto_ranks_max (pts : List Pt) : List Int :=
  let n := pts.length
  if n = 0 then [] else
  let counts0 : List Int := (List.range n).map fun i => (domCount pts i : Int)
  let ranks0 : List Int := List.replicate n (-1)
  let current0 := (List.range n).filter fun i => domCount pts i = 0
  let ranks := countLoop (domList pts) (n + 1) ranks0 counts0 current0 0
  if ranks.any fun v => v < 0 then
    let m := ranks.foldl max (-1)
    ranks.map fun v => if v < 0 then m else v
  else ranks

/-- `max(0.0, min(1.0, x))`: clamp a coordinate to the unit interval. -/
def clamp01 (x : ℚ) : ℚ := max 0 (min 1 x)

/-- `np.linspace(0.0, 1.0, n)`: `n` evenly spaced values from 0 to 1. -/
def linspace01 (n : Nat) : List ℚ :=
  (List.range n).map fun k => (k : ℚ) / ((n : ℚ) - 1)

/-- The flattened `M × 3` sample array of `_hypervolume_fraction`. The code
runs `Y, X, Z = np.meshgrid(xs, xs, xs, indexing="ij")` and stacks
`[X.ravel(), Y.ravel(), Z.ravel()]`, so the row at flat position `(i, j, k)`
is `(xs[j], xs[i], xs[k])`. -/
def hvSamples3 : List P3 :=
  let xs := linspace01 26
  (List.range 26).flatMap fun i => (List.range 26).flatMap fun j =>
    (List.range 26).map fun k => (xs.getD j 0, xs.getD i 0, xs.getD k 0)

/-- `np.all(p >= s)` for one point row and one 3D sample. -/
def covers3 (p s : P3) : Bool := s.1 ≤ p.1 && s.2.1 ≤ p.2.1 && s.2.2 ≤ p.2.2

/-- `_hypervolume_fraction` from `generate_plots_table.py`: clamp, exact
product for a single point, deterministic grid estimate otherwise
(`np.mean(dominated)` is the dominated-sample count over the sample count). -/
def hypervolume_fraction (points : List P3) : ℚ :=
  if points = [] then 0
  else
    let pts := points.map fun p => (clamp01 p.1, clamp01 p.2.1, clamp01 p.2.2)
    if pts.length = 1 then
      let p := pts.getD 0 default
      p.1 * p.2.1 * p.2.2
    else
      ((hvSamples3.countP fun s => pts.any fun p => covers3 p s : Nat) : ℚ) /
        (hvSamples3.length : ℚ)

/-- The flattened `M × 2` sample array of `_hypervolume_fraction_2d`. Here
`X, Y = np.meshgrid(xs, xs, indexing="ij")`, so the row at flat position
`(i, j)` is `(xs[i], xs[j])`. -/
def hvSamples2 : List P2 :=
  let xs := linspace01 100
  (List.range 100).flatMap fun i =>
    (List.range 100).map fun j => (xs.getD i 0, xs.getD j 0)

/-- `np.all(p >= s)` for one point row and one 2D sample. -/
def covers2 (p s : P2) : Bool := s.1 ≤ p.1 && s.2 ≤ p.2

/-- `_hypervolume_fraction_2d` from `generate_plots_table.py`. -/
def hypervolume_fraction_2d (points : List P2) : ℚ :=
  if points = [] then 0
  else
    let pts := points.map fun p => (clamp01 p.1, clamp01 p.2)
    if pts.length = 1 then
      let p := pts.getD 0 default
      p.1 * p.2
    else
      ((hvSamples2.countP fun s => pts.any fun p => covers2 p s : Nat) : ℚ) /
        (hvSamples2.length : ℚ)

/-! ### List helper lemmas -/

theorem set_getD_eq {α : Type} {l : List α} {i : Nat} {a d : α} (h : i < l.length) :
    (l.set i a).getD i d = a := by
  simp [List.getD_eq_getElem?_getD, List.getElem?_set_self, h]

theorem set_getD_ne {α : Type} {l : List α} {i j : Nat} {a d : α} (h : i ≠ j) :
    (l.set i a).getD j d = l.getD j d := by
  simp [List.getD_eq_getElem?_getD, List.getElem?_set_ne h]

theorem zip_all_iff {α β : Type} (f : α × β → Bool) (a : List α) (b : List β) :
    (a.zip b).all f = true ↔
      ∀ i, (h1 : i < a.length) → (h2 : i < b.length) → f (a[i], b[i]) = true := by
  rw [List.all_eq_true]
  constructor
  · intro h i h1 h2
    refine h _ (List.mem_iff_getElem.mpr ⟨i, ?_, ?_⟩)
    · simp only [List.length_zip]; omega
    · simp [List.getElem_zip]
  · intro h x hx
    obtain ⟨i, hi, hx⟩ := List.mem_iff_getElem.mp hx
    have h1 : i < a.length := by simp only [List.length_zip] at hi; omega
    have h2 : i < b.length := by simp only [List.length_zip] at hi; omega
    rw [← hx]
    simpa [List.getElem_zip] using h i h1 h2

theorem zip_any_iff {α β : Type} (f : α × β → Bool) (a : List α) (b : List β) :
    (a.zip b).any f = true ↔
      ∃ i, ∃ (h1 : i < a.length), ∃ (h2 : i < b.length), f (a[i], b[i]) = true := by
  rw [List.any_eq_true]
  constructor
  · intro h
    obtain ⟨x, hx, hfx⟩ := h
    obtain ⟨i, hi, hx⟩ := List.mem_iff_getElem.mp hx
    have h1 : i < a.length := by simp only [List.length_zip] at hi; omega
    have h2 : i < b.length := by simp only [List.length_zip] at hi; omega
    refine ⟨i, h1, h2, ?_⟩
    rw [← hx] at hfx
    simpa [List.getElem_zip] using hfx
  · rintro ⟨i, h1, h2, hf⟩
    refine ⟨(a[i], b[i]), List.mem_iff_getElem.mpr ⟨i, ?_, ?_⟩, hf⟩
    · simp only [List.length_zip]; omega
    · simp [List.getElem_zip]

/-! ### The dominance relation -/

/-- Coordinatewise characterization of `_dominates_max`. -/
theorem dominates_max_iff {a b : Pt} :
    dominates_max a b = true ↔
      (∀ i, (h1 : i < a.length) → (h2 : i < b.length) → b[i] ≤ a[i]) ∧
      (∃ i, ∃ (h1 : i < a.length), ∃ (h2 : i < b.length), b[i] < a[i]) := by
  simp only [dominates_max, Bool.and_eq_true, zip_all_iff, zip_any_iff, decide_eq_true_eq]

/-- `_dominates_max` is irreflexive: no row dominates itself. -/
theorem dominates_max_irrefl (a : Pt) : dominates_max a a = false := by
  rw [Bool.eq_false_iff, Ne, dominates_max_iff]
  rintro ⟨-, i, h1, h2, hlt⟩
  exact lt_irrefl _ hlt

/-- `_dominates_max` is asymmetric. -/
theorem dominates_max_asymm {a b : Pt} (h : dominates_max a b = true) :
    dominates_max b a = false := by
  rw [dominates_max_iff] at h
  obtain ⟨hall, i, h1, h2, hlt⟩ := h
  rw [Bool.eq_false_iff, Ne, dominates_max_iff]
  rintro ⟨hall2, -⟩
  exact absurd hlt (not_lt.mpr (hall2 i h2 h1))

/-- `_dominates_max` is transitive on rows of equal dimension. -/
theorem dominates_max_trans {a b c : Pt} (hab : a.length = b.length)
    (hbc : b.length = c.length) (h1 : dominates_max a b = true)
    (h2 : dominates_max b c = true) : dominates_max a c = true := by
  rw [dominates_max_iff] at h1 h2 ⊢
  obtain ⟨hall1, -⟩ := h1
  obtain ⟨hall2, j, hj1, hj2, hlt⟩ := h2
  constructor
  · intro i hia hic
    have hib : i < b.length := by omega
    exact le_trans (hall2 i hib hic) (hall1 i hia hib)
  · have hja : j < a.length := by omega
    exact ⟨j, hja, hj2, lt_of_lt_of_le hlt (hall1 j hja hj1)⟩

/-- Embed a 3D point as one row of an `(N, 3)` array. -/
def toL3 (p : P3) : Pt := [p.1, p.2.1, p.2.2]

/-- Embed a 2D point as one row of an `(N, 2)` array. -/
def toL2 (p : P2) : Pt := [p.1, p.2]

/-- The inlined 3D dominance check of `_pareto_nondominated_mask` agrees with
`_dominates_max` on the corresponding rows. -/
theorem dom3_iff_dominates {a b : P3} :
    dom3 a b = true ↔ dominates_max (toL3 a) (toL3 b) = true := by
  simp only [dom3, dominates_max, toL3, List.zip_cons_cons, List.zip_nil_right,
    List.all_cons, List.all_nil, List.any_cons, List.any_nil, Bool.and_eq_true,
    Bool.or_eq_true, decide_eq_true_eq, Bool.and_true, Bool.or_false]
  tauto

/-- The inlined 2D dominance check agrees with `_dominates_max`. -/
theorem dom2_iff_dominates {a b : P2} :
    dom2 a b = true ↔ dominates_max (toL2 a) (toL2 b) = true := by
  simp only [dom2, dominates_max, toL2, List.zip_cons_cons, List.zip_nil_right,
    List.all_cons, List.all_nil, List.any_cons, List.any_nil, Bool.and_eq_true,
    Bool.or_eq_true, decide_eq_true_eq, Bool.and_true, Bool.or_false]

theorem dom3_irrefl (a : P3) : dom3 a a = false := by
  rw [Bool.eq_false_iff, Ne, dom3_iff_dominates]
  intro h
  rw [dominates_max_irrefl] at h
  exact Bool.false_ne_true h

theorem dom3_trans {a b c : P3} (h1 : dom3 a b = true) (h2 : dom3 b c = true) :
    dom3 a c = true := by
  rw [dom3_iff_dominates] at h1 h2 ⊢
  exact dominates_max_trans (by simp [toL3]) (by simp [toL3]) h1 h2

theorem dom2_irrefl (a : P2) : dom2 a a = false := by
  rw [Bool.eq_false_iff, Ne, dom2_iff_dominates]
  intro h
  rw [dominates_max_irrefl] at h
  exact Bool.false_ne_true h

theorem dom2_trans {a b c : P2} (h1 : dom2 a b = true) (h2 : dom2 b c = true) :
    dom2 a c = true := by
  rw [dom2_iff_dominates] at h1 h2 ⊢
  exact dominates_max_trans (by simp [toL2]) (by simp [toL2]) h1 h2

/-! ### Abstract rank theory

`R j i` reads "point `j` dominates point `i`"; indices live below `n`.
The mathematical Pareto rank is 0 for a point with no dominator, and one
more than the maximal rank among dominators otherwise. Both implementations
are later shown to compute this function (up to the peeling cutoff). -/

section RankTheory

variable (n : Nat) (R : Nat → Nat → Prop) [DecidableRel R]

/-- The set of dominators of `i` among the first `n` indices. -/
def domsOf (i : Nat) : Finset Nat := (Finset.range n).filter fun j => R j i

theorem mem_domsOf {i j : Nat} : j ∈ domsOf n R i ↔ j < n ∧ R j i := by
  simp [domsOf]

theorem domsOf_ssubset (hT : ∀ a b c, R a b → R b c → R a c) (hI : ∀ a, ¬ R a a)
    {i j : Nat} (hj : j ∈ domsOf n R i) : domsOf n R j ⊂ domsOf n R i := by
  rw [Finset.ssubset_def]
  constructor
  · intro k hk
    rw [mem_domsOf] at hk hj ⊢
    exact ⟨hk.1, hT _ _ _ hk.2 hj.2⟩
  · intro hsub
    have hjj := hsub hj
    rw [mem_domsOf] at hjj
    exact hI j hjj.2

/-- The mathematical Pareto rank over `R`: zero for a non-dominated index,
otherwise one more than the maximal rank among its dominators. -/
def rankSpec (hT : ∀ a b c, R a b → R b c → R a c) (hI : ∀ a, ¬ R a a)
    (i : Nat) : Nat :=
  (domsOf n R i).attach.sup fun j => rankSpec hT hI j.1 + 1
termination_by (domsOf n R i).card
decreasing_by exact Finset.card_lt_card (domsOf_ssubset n R hT hI j.2)

variable (hT : ∀ a b c, R a b → R b c → R a c) (hI : ∀ a, ¬ R a a)

theorem rankSpec_def (i : Nat) :
    rankSpec n R hT hI i = (domsOf n R i).sup fun j => rankSpec n R hT hI j + 1 := by
  conv_lhs => rw [rankSpec]
  exact Finset.sup_attach (domsOf n R i) fun j => rankSpec n R hT hI j + 1

theorem rankSpec_lt_of_R {i j : Nat} (hj : j < n) (hR : R j i) :
    rankSpec n R hT hI j < rankSpec n R hT hI i := by
  have hmem : j ∈ domsOf n R i := (mem_domsOf n R).mpr ⟨hj, hR⟩
  have h := Finset.le_sup (f := fun j => rankSpec n R hT hI j + 1) hmem
  rw [← rankSpec_def] at h
  have h2 : rankSpec n R hT hI j + 1 ≤ rankSpec n R hT hI i := h
  omega

theorem rankSpec_eq_zero_iff {i : Nat} :
    rankSpec n R hT hI i = 0 ↔ ∀ j, j < n → ¬ R j i := by
  constructor
  · intro h j hj hR
    have := rankSpec_lt_of_R n R hT hI hj hR
    omega
  · intro h
    have hempty : domsOf n R i = ∅ := by
      apply Finset.eq_empty_of_forall_not_mem
      intro j hjm
      rw [mem_domsOf] at hjm
      exact h j hjm.1 hjm.2
    rw [rankSpec_def, hempty, Finset.sup_empty]
    rfl

theorem rankSpec_succ_exists {i r : Nat} (h : rankSpec n R hT hI i = r + 1) :
    ∃ j, j < n ∧ R j i ∧ rankSpec n R hT hI j = r := by
  rw [rankSpec_def] at h
  have hne : (domsOf n R i).Nonempty := by
    by_contra hemp
    rw [Finset.not_nonempty_iff_eq_empty] at hemp
    rw [hemp, Finset.sup_empty] at h
    exact absurd h (by simp)
  obtain ⟨j, hjmem, hjsup⟩ :=
    Finset.exists_mem_eq_sup _ hne (fun j => rankSpec n R hT hI j + 1)
  rw [hjsup] at h
  rw [mem_domsOf] at hjmem
  exact ⟨j, hjmem.1, hjmem.2, by omega⟩

theorem rankSpec_le_card_aux :
    ∀ (c i : Nat), (domsOf n R i).card ≤ c →
      rankSpec n R hT hI i ≤ (domsOf n R i).card := by
  intro c
  induction c with
  | zero =>
    intro i hc
    have hempty : domsOf n R i = ∅ :=
      Finset.card_eq_zero.mp (le_antisymm hc (Nat.zero_le _))
    rw [rankSpec_def, hempty, Finset.sup_empty]
    exact Nat.zero_le _
  | succ c ih =>
    intro i hc
    rw [rankSpec_def]
    apply Finset.sup_le
    intro j hj
    have hcard := Finset.card_lt_card (domsOf_ssubset n R hT hI hj)
    have hrj := ih j (by omega)
    omega

theorem rankSpec_le_card (i : Nat) :
    rankSpec n R hT hI i ≤ (domsOf n R i).card :=
  rankSpec_le_card_aux n R hT hI _ i le_rfl

theorem rankSpec_lt_n {i : Nat} (hi : i < n) : rankSpec n R hT hI i < n := by
  have h1 := rankSpec_le_card n R hT hI i
  have h2 : domsOf n R i ⊆ (Finset.range n).erase i := by
    intro k hk
    rw [mem_domsOf] at hk
    rw [Finset.mem_erase, Finset.mem_range]
    refine ⟨?_, hk.1⟩
    intro hki
    exact hI i (hki ▸ hk.2)
  have h3 := Finset.card_le_card h2
  rw [Finset.card_erase_of_mem (Finset.mem_range.mpr hi), Finset.card_range] at h3
  omega

theorem rankSpec_exists_eq {i r : Nat} (hi : i < n)
    (h : r ≤ rankSpec n R hT hI i) :
    ∃ x, x < n ∧ rankSpec n R hT hI x = r := by
  obtain ⟨d, hd⟩ : ∃ d, rankSpec n R hT hI i = r + d :=
    ⟨rankSpec n R hT hI i - r, by omega⟩
  clear h
  induction d generalizing i with
  | zero => exact ⟨i, hi, by omega⟩
  | succ d ih =>
    obtain ⟨j, hjn, hR, hrj⟩ :=
      rankSpec_succ_exists n R hT hI (show rankSpec n R hT hI i = (r + d) + 1 by omega)
    exact ih hjn hrj

/-- A point of a given rank is exactly a point all of whose dominators have
smaller rank, with at least one of rank `s - 1` when `s > 0`; equivalently,
it sits in the front among points of rank `≥ s`. -/
theorem rankSpec_eq_iff_front {i s : Nat} (hi : i < n) :
    rankSpec n R hT hI i = s ↔
      (s ≤ rankSpec n R hT hI i ∧
        ∀ j, j < n → s ≤ rankSpec n R hT hI j → ¬ R j i) := by
  constructor
  · intro h
    refine ⟨le_of_eq h.symm, ?_⟩
    intro j hj hsj hR
    have := rankSpec_lt_of_R n R hT hI hj hR
    omega
  · rintro ⟨hle, hnone⟩
    by_contra hne
    have hgt : s + 1 ≤ rankSpec n R hT hI i := by omega
    obtain ⟨d, hd⟩ : ∃ d, rankSpec n R hT hI i = s + d + 1 :=
      ⟨rankSpec n R hT hI i - s - 1, by omega⟩
    obtain ⟨j, hjn, hR, hrj⟩ :=
      rankSpec_succ_exists n R hT hI (show rankSpec n R hT hI i = (s + d) + 1 by omega)
    exact hnone j hjn (by omega) hR

end RankTheory

/-- `rankSpec` only depends on the relation within the index range. -/
theorem rankSpec_congr {n : Nat} {R R' : Nat → Nat → Prop}
    [DecidableRel R] [DecidableRel R']
    {hT : ∀ a b c, R a b → R b c → R a c} {hI : ∀ a, ¬ R a a}
    {hT' : ∀ a b c, R' a b → R' b c → R' a c} {hI' : ∀ a, ¬ R' a a}
    (h : ∀ i j, i < n → j < n → (R i j ↔ R' i j)) :
    ∀ c i, (domsOf n R i).card ≤ c → i < n →
      rankSpec n R hT hI i = rankSpec n R' hT' hI' i := by
  intro c
  induction c with
  | zero =>
    intro i hc hi
    have hempty : domsOf n R i = ∅ :=
      Finset.card_eq_zero.mp (le_antisymm hc (Nat.zero_le _))
    have hempty' : domsOf n R' i = ∅ := by
      apply Finset.eq_empty_of_forall_not_mem
      intro j hjm
      rw [mem_domsOf] at hjm
      have : j ∈ domsOf n R i := (mem_domsOf n R).mpr
        ⟨hjm.1, (h j i hjm.1 hi).mpr hjm.2⟩
      rw [hempty] at this
      exact absurd this (Finset.not_mem_empty j)
    rw [rankSpec_def, rankSpec_def, hempty, hempty']
    simp
  | succ c ih =>
    intro i hc hi
    have hsets : domsOf n R i = domsOf n R' i := by
      apply Finset.ext
      intro j
      rw [mem_domsOf, mem_domsOf]
      constructor
      · rintro ⟨hj, hR⟩; exact ⟨hj, (h j i hj hi).mp hR⟩
      · rintro ⟨hj, hR⟩; exact ⟨hj, (h j i hj hi).mpr hR⟩
    rw [rankSpec_def, rankSpec_def, ← hsets]
    apply Finset.sup_congr rfl
    intro j hj
    have hjlt : j < n := ((mem_domsOf n R).mp hj).1
    have hcard := Finset.card_lt_card (domsOf_ssubset n R hT hI hj)
    rw [ih j (by omega) hjlt]

/-! ### Characterization of the non-dominated mask -/

/-- The value the mask loop computes at index `q`: true iff no point at
another index dominates the point at `q`. -/
def maskTarget {A : Type} [Inhabited A] (domf : A → A → Bool) (points : List A)
    (q : Nat) : Bool :=
  !(points.enum.any fun jpj => decide (jpj.1 ≠ q) && domf jpj.2 (points.getD q default))

theorem drop_eq_cons_lt {A : Type} {m : Nat} {l : List A} {x : A} {xs : List A}
    (h : l.drop m = x :: xs) : m < l.length := by
  have := congrArg List.length h
  simp only [List.length_drop, List.length_cons] at this
  omega

theorem drop_eq_cons_getD {A : Type} [Inhabited A] {m : Nat} {l : List A}
    {x : A} {xs : List A} (h : l.drop m = x :: xs) : l.getD m default = x := by
  have h0 : (l.drop m).getD 0 default = x := by rw [h]; rfl
  rw [← h0, List.getD_eq_getElem?_getD, List.getD_eq_getElem?_getD,
    List.getElem?_drop]
  simp

theorem drop_eq_cons_drop {A : Type} {m : Nat} {l : List A} {x : A}
    {xs : List A} (h : l.drop m = x :: xs) : l.drop (m + 1) = xs := by
  have : l.drop (m + 1) = (l.drop m).drop 1 := by
    rw [List.drop_drop, Nat.add_comm]
  rw [this, h]
  rfl

theorem maskFold_go {A : Type} [Inhabited A] (domf : A → A → Bool)
    (points : List A) :
    ∀ (xs : List A) (m : Nat) (out : List Bool),
      points.drop m = xs →
      out.length = points.length →
      (∀ k, m ≤ k → k < points.length → out.getD k false = true) →
      (((xs.enumFrom m).foldl (maskStepG domf points) out).length = out.length ∧
        ∀ q, ((xs.enumFrom m).foldl (maskStepG domf points) out).getD q false =
          if m ≤ q ∧ q < points.length then maskTarget domf points q
          else out.getD q false) := by
  intro xs
  induction xs with
  | nil =>
    intro m out hdrop hlen htrue
    have hm : points.length ≤ m := by
      have := congrArg List.length hdrop
      simp only [List.length_drop, List.length_nil] at this
      omega
    refine ⟨rfl, ?_⟩
    intro q
    rw [if_neg (by omega)]
    rfl
  | cons x rest ih =>
    intro m out hdrop hlen htrue
    have hlen_m : m < points.length := drop_eq_cons_lt hdrop
    have hx : points.getD m default = x := drop_eq_cons_getD hdrop
    have hdrop1 : points.drop (m + 1) = rest := drop_eq_cons_drop hdrop
    have hguard : out.getD m false = true := htrue m le_rfl hlen_m
    have hA : maskStepG domf points out (m, x) =
        if points.enum.any (fun jpj => decide (jpj.1 ≠ m) && domf jpj.2 x) then
          out.set m false
        else out := by
      rw [maskStepG]
      show (if !(out.getD m false) then out
          else if points.enum.any (fun jpj => decide (jpj.1 ≠ m) && domf jpj.2 x)
            then out.set m false else out) = _
      rw [hguard]
      simp only [Bool.not_true]
      exact if_neg (by simp)
    have hlen1 : (maskStepG domf points out (m, x)).length = out.length := by
      rw [hA]; split <;> simp
    have hm_val : (maskStepG domf points out (m, x)).getD m false =
        maskTarget domf points m := by
      rw [hA, maskTarget, hx]
      by_cases hany :
          (points.enum.any fun jpj => decide (jpj.1 ≠ m) && domf jpj.2 x) = true
      · rw [if_pos hany, hany]
        exact set_getD_eq (by rw [hlen]; exact hlen_m)
      · rw [if_neg hany]
        rw [Bool.not_eq_true] at hany
        rw [hany]
        exact hguard
    have hne_val : ∀ k, k ≠ m →
        (maskStepG domf points out (m, x)).getD k false = out.getD k false := by
      intro k hk
      rw [hA]
      split
      · exact set_getD_ne fun hmk => hk hmk.symm
      · rfl
    have htrue1 : ∀ k, m + 1 ≤ k → k < points.length →
        (maskStepG domf points out (m, x)).getD k false = true := by
      intro k h1 h2
      rw [hne_val k (by omega)]
      exact htrue k (by omega) h2
    obtain ⟨ihlen, ihval⟩ := ih (m + 1) (maskStepG domf points out (m, x))
      hdrop1 (by rw [hlen1, hlen]) htrue1
    have hunfold : (x :: rest).enumFrom m = (m, x) :: rest.enumFrom (m + 1) := rfl
    rw [hunfold]
    simp only [List.foldl_cons]
    refine ⟨by rw [ihlen, hlen1], ?_⟩
    intro q
    rw [ihval q]
    by_cases h1 : m + 1 ≤ q ∧ q < points.length
    · rw [if_pos h1, if_pos (by omega)]
    · rw [if_neg h1]
      by_cases h2 : m ≤ q ∧ q < points.length
      · have hq : q = m := by omega
        rw [if_pos h2, hq, hm_val]
      · rw [if_neg h2]
        exact hne_val q (by omega)

theorem replicate_getD_lt {n k : Nat} {b : Bool} (h : k < n) :
    (List.replicate n b).getD k false = b := by
  rw [List.getD_eq_getElem?_getD, List.getElem?_replicate, if_pos h]
  rfl

theorem getD_of_le {A : Type} {l : List A} {i : Nat} {d : A}
    (h : l.length ≤ i) : l.getD i d = d := by
  rw [List.getD_eq_getElem?_getD, List.getElem?_eq_none h]
  rfl

theorem maskG_spec {A : Type} [Inhabited A] (domf : A → A → Bool)
    (points : List A) :
    (points.enum.foldl (maskStepG domf points)
        (List.replicate points.length true)).length = points.length ∧
      ∀ q, (points.enum.foldl (maskStepG domf points)
          (List.replicate points.length true)).getD q false =
        if q < points.length then maskTarget domf points q else false := by
  have h := maskFold_go domf points points 0 (List.replicate points.length true)
    rfl (by simp) (fun k _ hk => replicate_getD_lt hk)
  have henum : points.enum = points.enumFrom 0 := rfl
  rw [henum]
  obtain ⟨h1, h2⟩ := h
  refine ⟨by rw [h1]; simp, ?_⟩
  intro q
  rw [h2 q]
  by_cases hq : q < points.length
  · rw [if_pos (by omega), if_pos hq]
  · rw [if_neg (by omega), if_neg hq]
    exact getD_of_le (by simp; omega)

theorem enum_any_iff {A : Type} (f : Nat × A → Bool) (l : List A) :
    l.enum.any f = true ↔ ∃ j, ∃ (hj : j < l.length), f (j, l[j]) = true := by
  rw [List.enum_eq_zip_range, zip_any_iff]
  constructor
  · rintro ⟨i, h1, h2, hf⟩
    exact ⟨i, h2, by simpa using hf⟩
  · rintro ⟨j, hj, hf⟩
    exact ⟨j, by simpa using hj, hj, by simpa using hf⟩

theorem maskTarget_true_iff {A : Type} [Inhabited A] (domf : A → A → Bool)
    (points : List A) (q : Nat) :
    maskTarget domf points q = true ↔
      ∀ j, (hj : j < points.length) → j ≠ q →
        domf points[j] (points.getD q default) = false := by
  constructor
  · intro h j hj hjq
    cases hcase : domf points[j] (points.getD q default) with
    | false => rfl
    | true =>
      exfalso
      have hany : (points.enum.any fun jpj =>
          decide (jpj.1 ≠ q) && domf jpj.2 (points.getD q default)) = true :=
        (enum_any_iff _ _).mpr ⟨j, hj, by
          simp only [Bool.and_eq_true, decide_eq_true_eq]
          exact ⟨hjq, hcase⟩⟩
      rw [maskTarget, hany] at h
      exact Bool.noConfusion h
  · intro h
    rw [maskTarget, Bool.not_eq_true']
    rw [← Bool.not_eq_true, enum_any_iff]
    rintro ⟨j, hj, hf⟩
    simp only [Bool.and_eq_true, decide_eq_true_eq] at hf
    rw [h j hj hf.1] at hf
    exact Bool.noConfusion hf.2

theorem maskTarget_false_iff {A : Type} [Inhabited A] (domf : A → A → Bool)
    (points : List A) (q : Nat) :
    maskTarget domf points q = false ↔
      ∃ j, ∃ (hj : j < points.length), j ≠ q ∧
        domf points[j] (points.getD q default) = true := by
  constructor
  · intro h
    by_contra hn
    push_neg at hn
    have : maskTarget domf points q = true := by
      rw [maskTarget_true_iff]
      intro j hj hjq
      rw [← Bool.not_eq_true]
      exact hn j hj hjq
    rw [this] at h
    exact Bool.noConfusion h
  · rintro ⟨j, hj, hjq, hd⟩
    rw [← Bool.not_eq_true, maskTarget_true_iff]
    intro hall
    rw [hall j hj hjq] at hd
    exact Bool.noConfusion hd

/-! ### Characterization of the peeling-based ranking -/

/-- Index-level dominance for a fixed 3D point list. -/
def R3 (points : List P3) (i j : Nat) : Prop :=
  dom3 (points.getD i default) (points.getD j default) = true

instance (points : List P3) : DecidableRel (R3 points) := fun _ _ =>
  instDecidableEqBool _ _

theorem hT3 (points : List P3) :
    ∀ a b c, R3 points a b → R3 points b c → R3 points a c :=
  fun _ _ _ h1 h2 => dom3_trans h1 h2

theorem hI3 (points : List P3) : ∀ a, ¬ R3 points a a := by
  intro a h
  rw [R3, dom3_irrefl] at h
  exact Bool.noConfusion h

/-- The mathematical rank of index `i` in a 3D point list. -/
def rank3 (points : List P3) (i : Nat) : Nat :=
  rankSpec points.length (R3 points) (hT3 points) (hI3 points) i

theorem mem_zip_filterMap {A : Type} (l1 : List A) (l2 : List Bool) (x : A) :
    (x ∈ (l1.zip l2).filterMap fun p => if p.2 then some p.1 else none) ↔
      ∃ pos, ∃ (h1 : pos < l1.length), ∃ (h2 : pos < l2.length),
        l1[pos] = x ∧ l2[pos] = true := by
  rw [List.mem_filterMap]
  constructor
  · rintro ⟨⟨a, b⟩, hab, hsome⟩
    by_cases hb : b = true
    · rw [if_pos hb] at hsome
      obtain ⟨pos, hpos, hpair⟩ := List.mem_iff_getElem.mp hab
      have h1 : pos < l1.length := by simp only [List.length_zip] at hpos; omega
      have h2 : pos < l2.length := by simp only [List.length_zip] at hpos; omega
      rw [List.getElem_zip] at hpair
      refine ⟨pos, h1, h2, ?_, ?_⟩
      · have := congrArg Prod.fst hpair
        simp at this
        rw [this]
        exact Option.some_inj.mp hsome
      · have := congrArg Prod.snd hpair
        simp at this
        rw [this, hb]
    · rw [if_neg hb] at hsome
      exact Option.noConfusion hsome
  · rintro ⟨pos, h1, h2, hval, htrue⟩
    refine ⟨(l1[pos], l2[pos]), List.mem_iff_getElem.mpr ⟨pos, ?_, ?_⟩, ?_⟩
    · simp only [List.length_zip]; omega
    · rw [List.getElem_zip]
    · rw [htrue, if_pos rfl, hval]

/-- Membership in one peeled front: a remaining index whose point no other
remaining index dominates. -/
theorem peelFront_mem_iff (points : List P3) (rem : List Nat) (x : Nat) :
    x ∈ peelFront points rem ↔
      x ∈ rem ∧ ∀ j ∈ rem, ¬ R3 points j x := by
  obtain ⟨hmlen, hmval⟩ :=
    maskG_spec dom3 (rem.map fun i => points.getD i default)
  have hcurlen : (rem.map fun i => points.getD i default).length = rem.length := by
    simp
  have hmask_len :
      (pareto_nondominated_mask (rem.map fun i => points.getD i default)).length =
        rem.length := by
    rw [pareto_nondominated_mask, hmlen, hcurlen]
  have hmask_val : ∀ q,
      (pareto_nondominated_mask (rem.map fun i => points.getD i default)).getD q false =
        if q < rem.length then
          maskTarget dom3 (rem.map fun i => points.getD i default) q
        else false := by
    intro q
    rw [pareto_nondominated_mask, hmval q, hcurlen]
  have hcur_at : ∀ (pos : Nat) (hpos : pos < rem.length),
      (rem.map fun i => points.getD i default).getD pos default =
        points.getD (rem[pos]) default := by
    intro pos hpos
    rw [List.getD_eq_getElem?_getD,
      List.getElem?_eq_getElem (by rw [hcurlen]; omega)]
    simp only [Option.getD_some, List.getElem_map]
  rw [peelFront]
  rw [mem_zip_filterMap]
  constructor
  · rintro ⟨pos, h1, h2, hval, htrue⟩
    have hx : x ∈ rem := by rw [← hval]; exact List.getElem_mem h1
    refine ⟨hx, ?_⟩
    have htrue2 :
        (pareto_nondominated_mask (rem.map fun i => points.getD i default)).getD
          pos false = true := by
      rw [List.getD_eq_getElem?_getD, List.getElem?_eq_getElem h2]
      simpa using htrue
    rw [hmask_val pos, if_pos h1, maskTarget_true_iff] at htrue2
    intro j hj hR
    obtain ⟨pj, hpj, hpjval⟩ := List.mem_iff_getElem.mp hj
    by_cases hpp : pj = pos
    · subst hpp
      have hjx : j = x := by rw [← hpjval]; exact hval
      rw [hjx] at hR
      exact hI3 points x hR
    · have ht := htrue2 pj (by rw [hcurlen]; omega) hpp
      simp only [List.getElem_map] at ht
      rw [hcur_at pos h1] at ht
      rw [hval] at ht
      rw [← hpjval] at hR
      rw [R3] at hR
      rw [ht] at hR
      exact Bool.noConfusion hR
  · rintro ⟨hx, hnone⟩
    obtain ⟨pos, hpos, hval⟩ := List.mem_iff_getElem.mp hx
    refine ⟨pos, hpos, by rw [hmask_len]; omega, hval, ?_⟩
    have hgoal :
        (pareto_nondominated_mask (rem.map fun i => points.getD i default)).getD
          pos false = true := by
      rw [hmask_val pos, if_pos hpos, maskTarget_true_iff]
      intro pj hpj hpp
      simp only [List.getElem_map]
      rw [hcur_at pos hpos]
      rw [hval]
      have hpj2 : pj < rem.length := by rw [hcurlen] at hpj; omega
      have hj_mem : rem[pj] ∈ rem := List.getElem_mem _
      have hnR := hnone (rem[pj]) hj_mem
      rw [R3] at hnR
      cases hcase : dom3 (points.getD (rem[pj]) default)
          (points.getD x default) with
      | false => rfl
      | true => exact absurd hcase hnR
    rw [List.getD_eq_getElem?_getD,
      List.getElem?_eq_getElem (by rw [hmask_len]; omega)] at hgoal
    simpa using hgoal

theorem rank3_lt_of_R {points : List P3} {i j : Nat} (hj : j < points.length)
    (hR : R3 points j i) : rank3 points j < rank3 points i :=
  rankSpec_lt_of_R points.length (R3 points) (hT3 points) (hI3 points) hj hR

theorem rank3_front_iff {points : List P3} {i s : Nat} (hi : i < points.length) :
    rank3 points i = s ↔
      (s ≤ rank3 points i ∧
        ∀ j, j < points.length → s ≤ rank3 points j → ¬ R3 points j i) :=
  rankSpec_eq_iff_front points.length (R3 points) (hT3 points) (hI3 points) hi

theorem rank3_lt_len {points : List P3} {i : Nat} (hi : i < points.length) :
    rank3 points i < points.length :=
  rankSpec_lt_n points.length (R3 points) (hT3 points) (hI3 points) hi

theorem rank3_exists_eq {points : List P3} {i r : Nat} (hi : i < points.length)
    (h : r ≤ rank3 points i) :
    ∃ x, x < points.length ∧ rank3 points x = r :=
  rankSpec_exists_eq points.length (R3 points) (hT3 points) (hI3 points) hi h

/-- With `rem` holding exactly the indices of rank at least `r`, the peeled
front is exactly the set of indices of rank `r`. -/
theorem peelFront_eq_level (points : List P3) (rem : List Nat) (r : Nat)
    (hrem : ∀ i, i ∈ rem ↔ (i < points.length ∧ r ≤ rank3 points i)) (x : Nat) :
    x ∈ peelFront points rem ↔ (x < points.length ∧ rank3 points x = r) := by
  rw [peelFront_mem_iff]
  constructor
  · rintro ⟨hx, hnone⟩
    obtain ⟨hxn, hxr⟩ := (hrem x).mp hx
    refine ⟨hxn, ?_⟩
    rw [rank3_front_iff hxn]
    refine ⟨hxr, ?_⟩
    intro j hj hrj hR
    exact hnone j ((hrem j).mpr ⟨hj, hrj⟩) hR
  · rintro ⟨hxn, hxr⟩
    refine ⟨(hrem x).mpr ⟨hxn, le_of_eq hxr.symm⟩, ?_⟩
    intro j hj hR
    obtain ⟨hjn, hjr⟩ := (hrem j).mp hj
    have hlt := rank3_lt_of_R hjn hR
    omega

theorem foldl_set_spec (v : Int) :
    ∀ (l : List Nat) (ranks : List Int), (∀ i ∈ l, i < ranks.length) →
      ((l.foldl (fun rk idx => rk.set idx v) ranks).length = ranks.length ∧
        ∀ q, (l.foldl (fun rk idx => rk.set idx v) ranks).getD q 0 =
          if q ∈ l then v else ranks.getD q 0) := by
  intro l
  induction l with
  | nil =>
    intro ranks _
    exact ⟨rfl, fun q => by rw [if_neg (List.not_mem_nil q)]; rfl⟩
  | cons a l ih =>
    intro ranks h
    simp only [List.foldl_cons]
    have ha : a < ranks.length := h a (List.mem_cons_self a l)
    obtain ⟨ihlen, ihval⟩ := ih (ranks.set a v) (by
      intro i hi
      rw [List.length_set]
      exact h i (List.mem_cons_of_mem a hi))
    refine ⟨by rw [ihlen, List.length_set], ?_⟩
    intro q
    rw [ihval q]
    by_cases hql : q ∈ l
    · rw [if_pos hql, if_pos (List.mem_cons_of_mem a hql)]
    · rw [if_neg hql]
      by_cases hqa : q = a
      · rw [if_pos (by rw [hqa]; exact List.mem_cons_self a l), hqa]
        exact set_getD_eq ha
      · rw [if_neg (by
          intro hmem
          rcases List.mem_cons.mp hmem with h1 | h2
          · exact hqa h1
          · exact hql h2)]
        exact set_getD_ne fun hh => hqa hh.symm

theorem peelGo_nil (points : List P3) (ranks : List Int) (r : Nat) :
    peelGo points [] ranks r = ranks := by
  rw [peelGo]
  simp

/-- Full characterization of the peeling loop: starting from the set of
indices of rank `≥ r` with all smaller ranks recorded, it records
`min (rank, 51)` for every index (the `51` arises from the safety cutoff,
which assigns `r + 1 = 51` to everything still remaining once 51 fronts
have been peeled). -/
theorem peelGo_spec (points : List P3) :
    ∀ (L : Nat) (rem : List Nat) (ranks : List Int) (r : Nat),
      rem.length ≤ L → r ≤ 50 → ranks.length = points.length →
      (∀ i, i ∈ rem ↔ (i < points.length ∧ r ≤ rank3 points i)) →
      (∀ q, q < points.length → rank3 points q < r →
        ranks.getD q 0 = ((min (rank3 points q) 51 : Nat) : Int)) →
      ((peelGo points rem ranks r).length = points.length ∧
        ∀ q, q < points.length →
          (peelGo points rem ranks r).getD q 0 =
            ((min (rank3 points q) 51 : Nat) : Int)) := by
  intro L
  induction L with
  | zero =>
    intro rem ranks r hL _ hlen hrem hcorrect
    have hnil : rem = [] := List.eq_nil_of_length_eq_zero (by omega)
    subst hnil
    rw [peelGo_nil]
    refine ⟨hlen, ?_⟩
    intro q hq
    have : ¬ (q < points.length ∧ r ≤ rank3 points q) := by
      rw [← hrem q]
      exact List.not_mem_nil q
    exact hcorrect q hq (by omega)
  | succ L ih =>
    intro rem ranks r hL hr hlen hrem hcorrect
    by_cases hne : rem = []
    · subst hne
      rw [peelGo_nil]
      refine ⟨hlen, ?_⟩
      intro q hq
      have : ¬ (q < points.length ∧ r ≤ rank3 points q) := by
        rw [← hrem q]
        exact List.not_mem_nil q
      exact hcorrect q hq (by omega)
    · have hfront : ∀ x, x ∈ peelFront points rem ↔
          (x < points.length ∧ rank3 points x = r) :=
        peelFront_eq_level points rem r hrem
      obtain ⟨i0, hi0⟩ := List.exists_mem_of_ne_nil rem hne
      obtain ⟨hi0n, hi0r⟩ := (hrem i0).mp hi0
      obtain ⟨x0, hx0n, hx0r⟩ := rank3_exists_eq hi0n hi0r
      have hx0f : x0 ∈ peelFront points rem := (hfront x0).mpr ⟨hx0n, hx0r⟩
      have hfne : peelFront points rem ≠ [] := List.ne_nil_of_mem hx0f
      have hstep : peelGo points rem ranks r =
          if r + 1 > 50 then
            ((rem.filter fun i => !(peelFront points rem).contains i).foldl
              (fun rk idx => rk.set idx ((r : Int) + 1))
              ((peelFront points rem).foldl
                (fun rk idx => rk.set idx (r : Int)) ranks))
          else peelGo points
            (rem.filter fun i => !(peelFront points rem).contains i)
            ((peelFront points rem).foldl
              (fun rk idx => rk.set idx (r : Int)) ranks) (r + 1) := by
        conv_lhs => rw [peelGo]
        rw [if_neg hne]
        simp only [dif_neg hfne]
      obtain ⟨h2len, h2val⟩ := foldl_set_spec (r : Int) (peelFront points rem)
        ranks (by
          intro i hif
          rw [hlen]
          exact ((hfront i).mp hif).1)
      have hmem2 : ∀ i, (i ∈ rem.filter fun i => !(peelFront points rem).contains i) ↔
          (i < points.length ∧ r + 1 ≤ rank3 points i) := by
        intro i
        rw [List.mem_filter]
        constructor
        · rintro ⟨hirem, hicon⟩
          obtain ⟨hin, hir⟩ := (hrem i).mp hirem
          have hnotf : ¬ (i ∈ peelFront points rem) := by
            intro hmem
            simp [hmem] at hicon
          rw [hfront i] at hnotf
          refine ⟨hin, ?_⟩
          have : ¬ rank3 points i = r := fun hh => hnotf ⟨hin, hh⟩
          omega
        · rintro ⟨hin, hir⟩
          refine ⟨(hrem i).mpr ⟨hin, by omega⟩, ?_⟩
          have : ¬ (i ∈ peelFront points rem) := by
            rw [hfront i]
            rintro ⟨-, hh⟩
            omega
          simp [this]
      have hcorrect2 : ∀ q, q < points.length → rank3 points q < r + 1 →
          ((peelFront points rem).foldl
            (fun rk idx => rk.set idx (r : Int)) ranks).getD q 0 =
          ((min (rank3 points q) 51 : Nat) : Int) := by
        intro q hq hqr
        rw [h2val q]
        by_cases hqf : q ∈ peelFront points rem
        · rw [if_pos hqf]
          have hqr2 : rank3 points q = r := ((hfront q).mp hqf).2
          rw [hqr2, Nat.min_eq_left (by omega)]
        · rw [if_neg hqf]
          have hqr3 : rank3 points q ≠ r := by
            intro hh
            exact hqf ((hfront q).mpr ⟨hq, hh⟩)
          exact hcorrect q hq (by omega)
      by_cases hcut : r + 1 > 50
      · rw [hstep, if_pos hcut]
        have hreq : r = 50 := by omega
        obtain ⟨h3len, h3val⟩ := foldl_set_spec ((r : Int) + 1)
          (rem.filter fun i => !(peelFront points rem).contains i)
          ((peelFront points rem).foldl
            (fun rk idx => rk.set idx (r : Int)) ranks) (by
            intro i hif
            rw [h2len, hlen]
            exact ((hmem2 i).mp hif).1)
        refine ⟨by rw [h3len, h2len, hlen], ?_⟩
        intro q hq
        rw [h3val q]
        by_cases hq2 : q ∈ rem.filter fun i => !(peelFront points rem).contains i
        · rw [if_pos hq2]
          have hq51 : 51 ≤ rank3 points q := by
            have := ((hmem2 q).mp hq2).2
            omega
          rw [Nat.min_eq_right (by omega)]
          rw [hreq]
          rfl
        · rw [if_neg hq2]
          have hql : rank3 points q < r + 1 := by
            by_contra hh
            exact hq2 ((hmem2 q).mpr ⟨hq, by omega⟩)
          exact hcorrect2 q hq hql
      · rw [hstep, if_neg hcut]
        have hshrink :
            (rem.filter fun i => !(peelFront points rem).contains i).length <
              rem.length := by
          refine List.length_filter_lt_length_iff_exists.mpr
            ⟨x0, peelFront_subset hx0f, ?_⟩
          simp [hx0f]
        exact ih (rem.filter fun i => !(peelFront points rem).contains i)
          ((peelFront points rem).foldl
            (fun rk idx => rk.set idx (r : Int)) ranks) (r + 1)
          (by omega) (by omega) (by rw [h2len, hlen]) hmem2 hcorrect2

/-- `_pareto_ranks` computes `min (rank, 51)` at every index. -/
theorem pareto_ranks_spec (points : List P3) :
    (pareto_ranks points).length = points.length ∧
      ∀ q, q < points.length →
        (pareto_ranks points).getD q 0 =
          ((min (rank3 points q) 51 : Nat) : Int) := by
  rw [pareto_ranks]
  exact peelGo_spec points points.length (List.range points.length)
    (List.replicate points.length (-1)) 0
    (by simp) (by omega) (by simp)
    (by intro i; simp [List.mem_range])
    (by intro q hq hq0; omega)

/-! ### Characterization of the counting-based ranking -/

/-- Index-level dominance for a fixed row list. -/
def Rmax (pts : List Pt) (i j : Nat) : Prop :=
  dominates_max (pts.getD i []) (pts.getD j []) = true

instance (pts : List Pt) : DecidableRel (Rmax pts) := fun _ _ =>
  instDecidableEqBool _ _

theorem Rmax_lt {pts : List Pt} {i j : Nat} (h : Rmax pts i j) :
    i < pts.length ∧ j < pts.length := by
  rw [Rmax, dominates_max_iff] at h
  obtain ⟨-, k, hk1, hk2, -⟩ := h
  constructor
  · by_contra hc
    rw [getD_of_le (by omega)] at hk1
    exact absurd hk1 (by simp)
  · by_contra hc
    rw [getD_of_le (by omega)] at hk2
    exact absurd hk2 (by simp)

theorem Rmax_irrefl (pts : List Pt) : ∀ a, ¬ Rmax pts a a := by
  intro a h
  rw [Rmax, dominates_max_irrefl] at h
  exact Bool.noConfusion h

theorem getD_length_of_mem {pts : List Pt} {d i : Nat}
    (hd : ∀ p ∈ pts, p.length = d) (hi : i < pts.length) :
    (pts.getD i []).length = d := by
  rw [List.getD_eq_getElem?_getD, List.getElem?_eq_getElem hi]
  exact hd _ (List.getElem_mem hi)

theorem Rmax_trans (pts : List Pt) (d : Nat) (hd : ∀ p ∈ pts, p.length = d) :
    ∀ a b c, Rmax pts a b → Rmax pts b c → Rmax pts a c := by
  intro a b c h1 h2
  obtain ⟨ha, hb⟩ := Rmax_lt h1
  obtain ⟨-, hc⟩ := Rmax_lt h2
  rw [Rmax] at h1 h2 ⊢
  exact dominates_max_trans
    (by rw [getD_length_of_mem hd ha, getD_length_of_mem hd hb])
    (by rw [getD_length_of_mem hd hb, getD_length_of_mem hd hc]) h1 h2

/-- The mathematical rank of row `i` for the counting algorithm (requires
rectangular input, as `np.asarray` does). -/
def rankMax (pts : List Pt) (d : Nat) (hd : ∀ p ∈ pts, p.length = d)
    (i : Nat) : Nat :=
  rankSpec pts.length (Rmax pts) (Rmax_trans pts d hd) (Rmax_irrefl pts) i

theorem mem_domList {pts : List Pt} {p q : Nat} :
    q ∈ domList pts p ↔ q < pts.length ∧ Rmax pts p q := by
  rw [domList, List.mem_filter, List.mem_range]
  constructor
  · rintro ⟨hq, hcond⟩
    simp only [Bool.and_eq_true, decide_eq_true_eq] at hcond
    exact ⟨hq, hcond.2⟩
  · rintro ⟨hq, hR⟩
    refine ⟨hq, ?_⟩
    simp only [Bool.and_eq_true, decide_eq_true_eq]
    refine ⟨?_, hR⟩
    intro hqp
    exact Rmax_irrefl pts p (hqp ▸ hR)

theorem domList_nodup (pts : List Pt) (p : Nat) : (domList pts p).Nodup :=
  (List.nodup_range _).filter _

theorem length_filter_range (n : Nat) (p : Nat → Prop) [DecidablePred p] :
    ((List.range n).filter fun j => decide (p j)).length =
      ((Finset.range n).filter p).card := by
  induction n with
  | zero => simp
  | succ m ih =>
    rw [List.range_succ, List.filter_append, List.length_append,
      Finset.range_succ, Finset.filter_insert, ih]
    by_cases hp : p m
    · rw [if_pos hp, Finset.card_insert_of_not_mem (by simp)]
      simp [hp]
    · rw [if_neg hp]
      simp [hp]

theorem domCount_eq_card (pts : List Pt) (i : Nat) :
    domCount pts i = (domsOf pts.length (Rmax pts) i).card := by
  rw [domCount, domsOf]
  rw [show ((Finset.range pts.length).filter fun j => Rmax pts j i).card =
    ((List.range pts.length).filter fun j => decide (Rmax pts j i)).length from
    (length_filter_range _ _).symm]
  congr 1
  apply List.filter_congr
  intro j hj
  rw [Bool.eq_iff_iff]
  simp only [Bool.and_eq_true, decide_eq_true_eq, Bool.not_eq_true']
  constructor
  · rintro ⟨⟨-, -⟩, hyes⟩
    exact hyes
  · intro hR
    have hji : j ≠ i := fun hh => Rmax_irrefl pts i (hh ▸ hR)
    have hno : dominates_max (pts.getD i []) (pts.getD j []) = false :=
      dominates_max_asymm hR
    exact ⟨⟨hji, hno⟩, hR⟩

/-- Specification of the inner decrement loop of `pareto_ranks_max`. -/
theorem countInner_spec :
    ∀ (dlist : List Nat) (cts : List Int) (next : List Nat),
      dlist.Nodup → (∀ q ∈ dlist, q < cts.length) →
      ((countInner dlist (cts, next)).1.length = cts.length ∧
        (∀ q, (countInner dlist (cts, next)).1.getD q 0 =
          if q ∈ dlist then cts.getD q 0 - 1 else cts.getD q 0) ∧
        (countInner dlist (cts, next)).2 =
          next ++ dlist.filter fun q => cts.getD q 0 = 1) := by
  intro dlist
  induction dlist with
  | nil =>
    intro cts next _ _
    refine ⟨rfl, fun q => by rw [if_neg (List.not_mem_nil q)]; rfl, by simp [countInner]⟩
  | cons q0 rest ih =>
    intro cts next hnd hbound
    have hq0 : q0 < cts.length := hbound q0 (List.mem_cons_self q0 rest)
    have hq0r : q0 ∉ rest := (List.nodup_cons.mp hnd).1
    have hstep : countInner (q0 :: rest) (cts, next) =
        countInner rest (cts.set q0 (cts.getD q0 0 - 1),
          if cts.getD q0 0 - 1 = 0 then next ++ [q0] else next) := by
      rw [countInner, countInner, List.foldl_cons]
    obtain ⟨ihlen, ihval, ihnext⟩ := ih (cts.set q0 (cts.getD q0 0 - 1))
      (if cts.getD q0 0 - 1 = 0 then next ++ [q0] else next)
      (List.nodup_cons.mp hnd).2
      (by
        intro q hq
        rw [List.length_set]
        exact hbound q (List.mem_cons_of_mem q0 hq))
    rw [hstep]
    refine ⟨by rw [ihlen, List.length_set], ?_, ?_⟩
    · intro q
      rw [ihval q]
      by_cases hqr : q ∈ rest
      · have hqq0 : q ≠ q0 := fun hh => hq0r (hh ▸ hqr)
        rw [if_pos hqr, if_pos (List.mem_cons_of_mem q0 hqr),
          set_getD_ne fun hh => hqq0 hh.symm]
      · rw [if_neg hqr]
        by_cases hqq0 : q = q0
        · subst hqq0
          rw [if_pos (List.mem_cons_self q rest), set_getD_eq hq0]
        · rw [if_neg (by
            intro hmem
            rcases List.mem_cons.mp hmem with h1 | h2
            · exact hqq0 h1
            · exact hqr h2)]
          rw [set_getD_ne fun hh => hqq0 hh.symm]
    · rw [ihnext]
      have hfilter : (rest.filter fun q => (cts.set q0 (cts.getD q0 0 - 1)).getD q 0 = 1) =
          rest.filter fun q => cts.getD q 0 = 1 := by
        apply List.filter_congr
        intro q hq
        have hqq0 : q ≠ q0 := fun hh => hq0r (hh ▸ hq)
        rw [set_getD_ne fun hh => hqq0 hh.symm]
      rw [hfilter]
      by_cases hone : cts.getD q0 0 = 1
      · rw [if_pos (by omega)]
        rw [show List.filter (fun q => decide (cts.getD q 0 = 1)) (q0 :: rest) =
          q0 :: List.filter (fun q => decide (cts.getD q 0 = 1)) rest from
          List.filter_cons_of_pos (decide_eq_true hone)]
        rw [List.append_assoc]
        rfl
      · rw [if_neg (by omega)]
        rw [show List.filter (fun q => decide (cts.getD q 0 = 1)) (q0 :: rest) =
          List.filter (fun q => decide (cts.getD q 0 = 1)) rest from
          List.filter_cons_of_neg (by
            intro hc
            rw [decide_eq_true_eq] at hc
            exact hone hc)]

/-- The dominators of `q` that still have rank at least `r`. -/
def Sset (pts : List Pt) (d : Nat) (hd : ∀ p ∈ pts, p.length = d) (r q : Nat) :
    Finset Nat :=
  (domsOf pts.length (Rmax pts) q).filter fun j => r ≤ rankMax pts d hd j

/-- Invariant for the `ranks` array during round `r`, after the members of
`done` have been processed. -/
def PR (pts : List Pt) (d : Nat) (hd : ∀ p ∈ pts, p.length = d) (r : Nat)
    (done : List Nat) (rks : List Int) : Prop :=
  ∀ q, q < pts.length → rks.getD q 0 =
    if rankMax pts d hd q < r then (rankMax pts d hd q : Int)
    else if q ∈ done then (r : Int) else -1

/-- Invariant for the `dominated_count` array during round `r`. -/
def PC (pts : List Pt) (d : Nat) (hd : ∀ p ∈ pts, p.length = d) (r : Nat)
    (done : List Nat) (cts : List Int) : Prop :=
  ∀ q, q < pts.length → cts.getD q 0 =
    (((Sset pts d hd r q).filter fun j => j ∉ done).card : Int)

/-- Invariant for the `next_front` list during round `r`. -/
def PN (pts : List Pt) (d : Nat) (hd : ∀ p ∈ pts, p.length = d) (r : Nat)
    (done : List Nat) (next : List Nat) : Prop :=
  (∀ q, q ∈ next ↔ (q < pts.length ∧ (Sset pts d hd r q).Nonempty ∧
    ∀ j ∈ Sset pts d hd r q, j ∈ done)) ∧ next.Nodup

theorem mem_Sset {pts : List Pt} {d : Nat} {hd : ∀ p ∈ pts, p.length = d}
    {r q j : Nat} :
    j ∈ Sset pts d hd r q ↔
      (j < pts.length ∧ Rmax pts j q ∧ r ≤ rankMax pts d hd j) := by
  rw [Sset, Finset.mem_filter, mem_domsOf]
  tauto

theorem countRound_step (pts : List Pt) (d : Nat)
    (hd : ∀ p ∈ pts, p.length = d) (r : Nat)
    (done : List Nat) (rks cts : List Int) (next : List Nat) (p : Nat)
    (hp_n : p < pts.length) (hp_r : rankMax pts d hd p = r) (hp_done : p ∉ done)
    (hrl : rks.length = pts.length) (hcl : cts.length = pts.length)
    (h1 : PR pts d hd r done rks) (h2 : PC pts d hd r done cts)
    (h3 : PN pts d hd r done next) :
    (countRound (domList pts) r (rks, cts, next) p).1.length = pts.length ∧
    (countRound (domList pts) r (rks, cts, next) p).2.1.length = pts.length ∧
    PR pts d hd r (done ++ [p]) (countRound (domList pts) r (rks, cts, next) p).1 ∧
    PC pts d hd r (done ++ [p]) (countRound (domList pts) r (rks, cts, next) p).2.1 ∧
    PN pts d hd r (done ++ [p]) (countRound (domList pts) r (rks, cts, next) p).2.2 := by
  obtain ⟨cilen, cival, cinext⟩ := countInner_spec (domList pts p) cts next
    (domList_nodup pts p)
    (by
      intro q hq
      rw [hcl]
      exact (mem_domList.mp hq).1)
  have hround : countRound (domList pts) r (rks, cts, next) p =
      (rks.set p (r : Int), (countInner (domList pts p) (cts, next)).1,
        (countInner (domList pts p) (cts, next)).2) := rfl
  have hmem_done1 : ∀ q : Nat, q ∈ done ++ [p] ↔ (q ∈ done ∨ q = p) := by
    intro q
    rw [List.mem_append, List.mem_singleton]
  rw [hround]
  refine ⟨by rw [List.length_set, hrl], by rw [cilen, hcl], ?_, ?_, ?_⟩
  · -- ranks invariant
    intro q hq
    by_cases hqp : q = p
    · subst hqp
      rw [set_getD_eq (by rw [hrl]; exact hq)]
      rw [if_neg (by omega), if_pos ((hmem_done1 q).mpr (Or.inr rfl))]
    · rw [set_getD_ne fun hh => hqp hh.symm, h1 q hq]
      by_cases hlt : rankMax pts d hd q < r
      · rw [if_pos hlt, if_pos hlt]
      · rw [if_neg hlt, if_neg hlt]
        by_cases hdone : q ∈ done
        · rw [if_pos hdone, if_pos ((hmem_done1 q).mpr (Or.inl hdone))]
        · rw [if_neg hdone, if_neg (by
            rw [hmem_done1 q]
            rintro (hh | hh)
            · exact hdone hh
            · exact hqp hh)]
  · -- counts invariant
    intro q hq
    rw [cival q, h2 q hq]
    by_cases hqd : q ∈ domList pts p
    · rw [if_pos hqd]
      have hRpq : Rmax pts p q := (mem_domList.mp hqd).2
      have hpS : p ∈ (Sset pts d hd r q).filter fun j => j ∉ done := by
        rw [Finset.mem_filter, mem_Sset]
        exact ⟨⟨hp_n, hRpq, by omega⟩, hp_done⟩
      have hsets : ((Sset pts d hd r q).filter fun j => j ∉ done ++ [p]) =
          ((Sset pts d hd r q).filter fun j => j ∉ done).erase p := by
        apply Finset.ext
        intro j
        rw [Finset.mem_erase, Finset.mem_filter, Finset.mem_filter, hmem_done1 j]
        tauto
      rw [hsets, Finset.card_erase_of_mem hpS]
      have hpos : 1 ≤ ((Sset pts d hd r q).filter fun j => j ∉ done).card :=
        Finset.card_pos.mpr ⟨p, hpS⟩
      omega
    · rw [if_neg hqd]
      have hpS : p ∉ Sset pts d hd r q := by
        rw [mem_Sset]
        rintro ⟨-, hR, -⟩
        exact hqd (mem_domList.mpr ⟨hq, hR⟩)
      have hsets : ((Sset pts d hd r q).filter fun j => j ∉ done ++ [p]) =
          (Sset pts d hd r q).filter fun j => j ∉ done := by
        apply Finset.filter_congr
        intro j hj
        rw [hmem_done1 j]
        constructor
        · intro hh hdj
          exact hh (Or.inl hdj)
        · rintro hh (hdj | hdj)
          · exact hh hdj
          · exact hpS (hdj ▸ hj)
      rw [hsets]
  · -- next invariant
    constructor
    · intro q
      rw [cinext, List.mem_append, List.mem_filter]
      constructor
      · rintro (hqn | ⟨hqd, hq1⟩)
        · obtain ⟨hqlt, hne, hsub⟩ := (h3.1 q).mp hqn
          exact ⟨hqlt, hne, fun j hj =>
            (hmem_done1 j).mpr (Or.inl (hsub j hj))⟩
        · have hqlt : q < pts.length := (mem_domList.mp hqd).1
          have hRpq : Rmax pts p q := (mem_domList.mp hqd).2
          have hpS : p ∈ Sset pts d hd r q :=
            mem_Sset.mpr ⟨hp_n, hRpq, by omega⟩
          rw [decide_eq_true_eq, h2 q hqlt] at hq1
          have hcard : ((Sset pts d hd r q).filter fun j => j ∉ done).card = 1 := by
            omega
          obtain ⟨x, hx⟩ := Finset.card_eq_one.mp hcard
          have hpx : p ∈ ({x} : Finset Nat) := by
            rw [← hx, Finset.mem_filter]
            exact ⟨hpS, hp_done⟩
          rw [Finset.mem_singleton] at hpx
          refine ⟨hqlt, ⟨p, hpS⟩, ?_⟩
          intro j hj
          rw [hmem_done1 j]
          by_cases hjd : j ∈ done
          · exact Or.inl hjd
          · have : j ∈ ({x} : Finset Nat) := by
              rw [← hx, Finset.mem_filter]
              exact ⟨hj, hjd⟩
            rw [Finset.mem_singleton] at this
            exact Or.inr (by rw [this, ← hpx])
      · rintro ⟨hqlt, hne, hsub⟩
        by_cases hall : ∀ j ∈ Sset pts d hd r q, j ∈ done
        · exact Or.inl ((h3.1 q).mpr ⟨hqlt, hne, hall⟩)
        · push_neg at hall
          obtain ⟨j0, hj0S, hj0d⟩ := hall
          have hj0p : j0 = p := by
            have := (hmem_done1 j0).mp (hsub j0 hj0S)
            tauto
          rw [hj0p] at hj0S hj0d
          have hRpq : Rmax pts p q := (mem_Sset.mp hj0S).2.1
          have hqd : q ∈ domList pts p := mem_domList.mpr ⟨hqlt, hRpq⟩
          refine Or.inr ⟨hqd, ?_⟩
          rw [decide_eq_true_eq, h2 q hqlt]
          have hset1 : ((Sset pts d hd r q).filter fun j => j ∉ done) = {p} := by
            apply Finset.ext
            intro j
            rw [Finset.mem_filter, Finset.mem_singleton]
            constructor
            · rintro ⟨hjS, hjd⟩
              have := (hmem_done1 j).mp (hsub j hjS)
              tauto
            · intro hh
              subst hh
              exact ⟨hj0S, hj0d⟩
          rw [hset1, Finset.card_singleton]
          rfl
    · rw [cinext]
      refine List.Nodup.append h3.2 ((domList_nodup pts p).filter _) ?_
      intro q hqn hqb
      rw [List.mem_filter] at hqb
      obtain ⟨hqd, hq1⟩ := hqb
      obtain ⟨hqlt, -, hsub⟩ := (h3.1 q).mp hqn
      have hempty : ((Sset pts d hd r q).filter fun j => j ∉ done) = ∅ := by
        apply Finset.eq_empty_of_forall_not_mem
        intro j hj
        rw [Finset.mem_filter] at hj
        exact hj.2 (hsub j hj.1)
      rw [decide_eq_true_eq, h2 q hqlt, hempty] at hq1
      exact absurd hq1 (by simp)

theorem countRound_fold (pts : List Pt) (d : Nat)
    (hd : ∀ p ∈ pts, p.length = d) (r : Nat) :
    ∀ (todo done : List Nat) (rks cts : List Int) (next : List Nat),
      (∀ p, ¬(p ∈ done ∧ p ∈ todo)) →
      (∀ p, (p ∈ done ∨ p ∈ todo) ↔ (p < pts.length ∧ rankMax pts d hd p = r)) →
      todo.Nodup →
      rks.length = pts.length → cts.length = pts.length →
      PR pts d hd r done rks → PC pts d hd r done cts →
      PN pts d hd r done next →
      ((todo.foldl (countRound (domList pts) r) (rks, cts, next)).1.length =
          pts.length ∧
        (todo.foldl (countRound (domList pts) r) (rks, cts, next)).2.1.length =
          pts.length ∧
        PR pts d hd r (done ++ todo)
          (todo.foldl (countRound (domList pts) r) (rks, cts, next)).1 ∧
        PC pts d hd r (done ++ todo)
          (todo.foldl (countRound (domList pts) r) (rks, cts, next)).2.1 ∧
        PN pts d hd r (done ++ todo)
          (todo.foldl (countRound (domList pts) r) (rks, cts, next)).2.2) := by
  intro todo
  induction todo with
  | nil =>
    intro done rks cts next _ _ _ hrl hcl h1 h2 h3
    simp only [List.foldl_nil, List.append_nil]
    exact ⟨hrl, hcl, h1, h2, h3⟩
  | cons p todo ih =>
    intro done rks cts next hdisj hlevel hnd hrl hcl h1 h2 h3
    have hp_level := (hlevel p).mp (Or.inr (List.mem_cons_self p todo))
    have hp_done : p ∉ done := fun hh => hdisj p ⟨hh, List.mem_cons_self p todo⟩
    obtain ⟨s1, s2, s3, s4, s5⟩ := countRound_step pts d hd r done rks cts next p
      hp_level.1 hp_level.2 hp_done hrl hcl h1 h2 h3
    simp only [List.foldl_cons]
    have hndp := List.nodup_cons.mp hnd
    have hres := ih (done ++ [p])
      (countRound (domList pts) r (rks, cts, next) p).1
      (countRound (domList pts) r (rks, cts, next) p).2.1
      (countRound (domList pts) r (rks, cts, next) p).2.2
      (by
        intro p2 hp2
        obtain ⟨hp2d, hp2t⟩ := hp2
        rcases List.mem_append.mp hp2d with hh | hh
        · exact hdisj p2 ⟨hh, List.mem_cons_of_mem p hp2t⟩
        · rw [List.mem_singleton] at hh
          subst hh
          exact hndp.1 hp2t)
      (by
        intro p2
        rw [← hlevel p2]
        constructor
        · rintro (hh | hh)
          · rcases List.mem_append.mp hh with hh2 | hh2
            · exact Or.inl hh2
            · rw [List.mem_singleton] at hh2
              subst hh2
              exact Or.inr (List.mem_cons_self p2 todo)
          · exact Or.inr (List.mem_cons_of_mem p hh)
        · rintro (hh | hh)
          · exact Or.inl (List.mem_append.mpr (Or.inl hh))
          · rcases List.mem_cons.mp hh with hh2 | hh2
            · subst hh2
              exact Or.inl (List.mem_append.mpr (Or.inr (List.mem_singleton.mpr rfl)))
            · exact Or.inr hh2)
      hndp.2 s1 s2 s3 s4 s5
    have happ : (done ++ [p]) ++ todo = done ++ (p :: todo) := by
      rw [List.append_assoc]
      rfl
    rw [happ] at hres
    exact hres

theorem rankMax_lt_len {pts : List Pt} {d : Nat} {hd : ∀ p ∈ pts, p.length = d}
    {i : Nat} (hi : i < pts.length) : rankMax pts d hd i < pts.length :=
  rankSpec_lt_n pts.length (Rmax pts) (Rmax_trans pts d hd) (Rmax_irrefl pts) hi

theorem rankMax_exists_eq {pts : List Pt} {d : Nat}
    {hd : ∀ p ∈ pts, p.length = d} {i r : Nat} (hi : i < pts.length)
    (h : r ≤ rankMax pts d hd i) :
    ∃ x, x < pts.length ∧ rankMax pts d hd x = r :=
  rankSpec_exists_eq pts.length (Rmax pts) (Rmax_trans pts d hd)
    (Rmax_irrefl pts) hi h

theorem rankMax_lt_of_R {pts : List Pt} {d : Nat}
    {hd : ∀ p ∈ pts, p.length = d} {i j : Nat} (hj : j < pts.length)
    (hR : Rmax pts j i) : rankMax pts d hd j < rankMax pts d hd i :=
  rankSpec_lt_of_R pts.length (Rmax pts) (Rmax_trans pts d hd)
    (Rmax_irrefl pts) hj hR

theorem rankMax_succ_exists {pts : List Pt} {d : Nat}
    {hd : ∀ p ∈ pts, p.length = d} {i r : Nat}
    (h : rankMax pts d hd i = r + 1) :
    ∃ j, j < pts.length ∧ Rmax pts j i ∧ rankMax pts d hd j = r :=
  rankSpec_succ_exists pts.length (Rmax pts) (Rmax_trans pts d hd)
    (Rmax_irrefl pts) h

theorem rankMax_eq_zero_iff {pts : List Pt} {d : Nat}
    {hd : ∀ p ∈ pts, p.length = d} {i : Nat} :
    rankMax pts d hd i = 0 ↔ ∀ j, j < pts.length → ¬ Rmax pts j i :=
  rankSpec_eq_zero_iff pts.length (Rmax pts) (Rmax_trans pts d hd)
    (Rmax_irrefl pts)

theorem rankMax_front_iff {pts : List Pt} {d : Nat}
    {hd : ∀ p ∈ pts, p.length = d} {i s : Nat} (hi : i < pts.length) :
    rankMax pts d hd i = s ↔
      (s ≤ rankMax pts d hd i ∧
        ∀ j, j < pts.length → s ≤ rankMax pts d hd j → ¬ Rmax pts j i) :=
  rankSpec_eq_iff_front pts.length (Rmax pts) (Rmax_trans pts d hd)
    (Rmax_irrefl pts) hi

theorem list_eq_of_getD {l1 l2 : List Int} (hlen : l1.length = l2.length)
    (h : ∀ q, q < l1.length → l1.getD q 0 = l2.getD q 0) : l1 = l2 := by
  apply List.ext_getElem hlen
  intro i h1 h2
  have hh := h i h1
  rw [List.getD_eq_getElem?_getD, List.getD_eq_getElem?_getD,
    List.getElem?_eq_getElem h1, List.getElem?_eq_getElem h2] at hh
  simpa using hh

theorem map_range_getD (f : Nat → Int) (n q : Nat) (h : q < n) :
    ((List.range n).map f).getD q 0 = f q := by
  rw [List.getD_eq_getElem?_getD, List.getElem?_eq_getElem (by simpa using h)]
  simp

theorem countLoop_zero (domf : Nat → List Nat) (ranks counts : List Int)
    (current : List Nat) (r : Nat) :
    countLoop domf 0 ranks counts current r = ranks := rfl

theorem countLoop_succ_nil (domf : Nat → List Nat) (fuel : Nat)
    (ranks counts : List Int) (r : Nat) :
    countLoop domf (fuel + 1) ranks counts [] r = ranks := rfl

theorem countLoop_succ_cons (domf : Nat → List Nat) (fuel : Nat)
    (ranks counts : List Int) (c : Nat) (cur : List Nat) (r : Nat) :
    countLoop domf (fuel + 1) ranks counts (c :: cur) r =
      countLoop domf fuel
        ((c :: cur).foldl (countRound domf r) (ranks, counts, [])).1
        ((c :: cur).foldl (countRound domf r) (ranks, counts, [])).2.1
        ((c :: cur).foldl (countRound domf r) (ranks, counts, [])).2.2
        (r + 1) := rfl

/-- Full characterization of the `while current_front:` loop: with enough
fuel and correct round-`r` state, it returns exactly the mathematical
ranks. -/
theorem countLoop_spec (pts : List Pt) (d : Nat)
    (hd : ∀ p ∈ pts, p.length = d) :
    ∀ (fuel : Nat) (rks cts : List Int) (cur : List Nat) (r : Nat),
      rks.length = pts.length → cts.length = pts.length →
      (∀ q, q < pts.length → rks.getD q 0 =
        if rankMax pts d hd q < r then (rankMax pts d hd q : Int) else -1) →
      (∀ q, q < pts.length → cts.getD q 0 = ((Sset pts d hd r q).card : Int)) →
      (∀ i, i ∈ cur ↔ (i < pts.length ∧ rankMax pts d hd i = r)) →
      cur.Nodup →
      pts.length + 1 ≤ fuel + r →
      countLoop (domList pts) fuel rks cts cur r =
        (List.range pts.length).map fun q => (rankMax pts d hd q : Int) := by
  intro fuel
  induction fuel with
  | zero =>
    intro rks cts cur r hrl hcl h1 h2 hcur hnd hfuel
    rw [countLoop_zero]
    apply list_eq_of_getD (by rw [hrl]; simp)
    intro q hq
    rw [hrl] at hq
    rw [map_range_getD _ _ _ hq, h1 q hq,
      if_pos (by have := @rankMax_lt_len pts d hd q hq; omega)]
  | succ fuel ih =>
    intro rks cts cur r hrl hcl h1 h2 hcur hnd hfuel
    cases cur with
    | nil =>
      rw [countLoop_succ_nil]
      apply list_eq_of_getD (by rw [hrl]; simp)
      intro q hq
      rw [hrl] at hq
      have hlt : rankMax pts d hd q < r := by
        by_contra hge
        obtain ⟨x, hxn, hxr⟩ := @rankMax_exists_eq pts d hd q r hq (by omega)
        exact List.not_mem_nil x ((hcur x).mpr ⟨hxn, hxr⟩)
      rw [map_range_getD _ _ _ hq, h1 q hq, if_pos hlt]
    | cons c cur' =>
      rw [countLoop_succ_cons]
      obtain ⟨s1, s2, s3, s4, s5⟩ := countRound_fold pts d hd r (c :: cur') []
        rks cts []
        (by rintro p ⟨hp, -⟩; exact List.not_mem_nil p hp)
        (by
          intro p
          rw [← hcur p]
          constructor
          · rintro (hh | hh)
            · exact absurd hh (List.not_mem_nil p)
            · exact hh
          · exact fun hh => Or.inr hh)
        hnd hrl hcl
        (by
          intro q hq
          rw [h1 q hq]
          by_cases hlt : rankMax pts d hd q < r
          · rw [if_pos hlt, if_pos hlt]
          · rw [if_neg hlt, if_neg hlt, if_neg (List.not_mem_nil q)])
        (by
          intro q hq
          rw [h2 q hq]
          have hfe : (Sset pts d hd r q).filter
              (fun j => j ∉ ([] : List Nat)) = Sset pts d hd r q :=
            Finset.filter_true_of_mem fun x _ => List.not_mem_nil x
          rw [hfe])
        (by
          constructor
          · intro q
            constructor
            · intro hh
              exact absurd hh (List.not_mem_nil q)
            · rintro ⟨-, ⟨j, hj⟩, hsub⟩
              exact absurd (hsub j hj) (List.not_mem_nil j)
          · exact List.nodup_nil)
      rw [List.nil_append] at s3 s4 s5
      refine ih _ _ _ (r + 1) s1 s2 ?_ ?_ ?_ s5.2 (by omega)
      · intro q hq
        rw [s3 q hq]
        rcases Nat.lt_trichotomy (rankMax pts d hd q) r with hlt | heq | hgt
        · rw [if_pos hlt, if_pos (by omega)]
        · rw [if_neg (by omega), if_pos ((hcur q).mpr ⟨hq, heq⟩),
            if_pos (by omega), heq]
        · rw [if_neg (by omega),
            if_neg (fun hh => by have := ((hcur q).mp hh).2; omega),
            if_neg (by omega)]
      · intro q hq
        have hsets : (Sset pts d hd r q).filter (fun j => j ∉ (c :: cur')) =
            Sset pts d hd (r + 1) q := by
          apply Finset.ext
          intro j
          rw [Finset.mem_filter, mem_Sset, mem_Sset]
          constructor
          · rintro ⟨⟨hjn, hjR, hjr⟩, hjc⟩
            refine ⟨hjn, hjR, ?_⟩
            have : ¬ (rankMax pts d hd j = r) := fun hh =>
              hjc ((hcur j).mpr ⟨hjn, hh⟩)
            omega
          · rintro ⟨hjn, hjR, hjr⟩
            refine ⟨⟨hjn, hjR, by omega⟩, ?_⟩
            intro hjc
            have := ((hcur j).mp hjc).2
            omega
        rw [s4 q hq, hsets]
      · intro i
        rw [s5.1 i]
        constructor
        · rintro ⟨hin, ⟨j0, hj0⟩, hsub⟩
          refine ⟨hin, ?_⟩
          obtain ⟨hj0n, hj0R, hj0r⟩ := mem_Sset.mp hj0
          have hj0rank : rankMax pts d hd j0 = r := ((hcur j0).mp (hsub j0 hj0)).2
          rw [rankMax_front_iff hin]
          constructor
          · have := @rankMax_lt_of_R pts d hd i j0 hj0n hj0R
            omega
          · intro j hjn hjr hjR
            have hjS : j ∈ Sset pts d hd r i :=
              mem_Sset.mpr ⟨hjn, hjR, by omega⟩
            have := ((hcur j).mp (hsub j hjS)).2
            omega
        · rintro ⟨hin, hir⟩
          obtain ⟨j, hjn, hjR, hjr⟩ := rankMax_succ_exists hir
          refine ⟨hin, ⟨j, mem_Sset.mpr ⟨hjn, hjR, by omega⟩⟩, ?_⟩
          intro j2 hj2
          obtain ⟨hj2n, hj2R, hj2r⟩ := mem_Sset.mp hj2
          have := @rankMax_lt_of_R pts d hd i j2 hj2n hj2R
          exact (hcur j2).mpr ⟨hj2n, by omega⟩

theorem domCount_eq_zero_iff (pts : List Pt) (i : Nat) :
    domCount pts i = 0 ↔ ∀ j, j < pts.length → ¬ Rmax pts j i := by
  rw [domCount_eq_card, Finset.card_eq_zero]
  constructor
  · intro hh j hj hR
    have hmem : j ∈ domsOf pts.length (Rmax pts) i :=
      (mem_domsOf _ _).mpr ⟨hj, hR⟩
    rw [hh] at hmem
    exact absurd hmem (Finset.not_mem_empty j)
  · intro hh
    apply Finset.eq_empty_of_forall_not_mem
    intro j hj
    rw [mem_domsOf] at hj
    exact hh j hj.1 hj.2

/-- `pareto_ranks_max` computes exactly the mathematical Pareto ranks on
rectangular input. -/
theorem pareto_ranks_max_spec (pts : List Pt) (d : Nat)
    (hd : ∀ p ∈ pts, p.length = d) :
    pareto_ranks_max pts =
      (List.range pts.length).map fun q => (rankMax pts d hd q : Int) := by
  by_cases hn : pts.length = 0
  · rw [pareto_ranks_max]
    simp only [hn]
    simp
  · have hkey := countLoop_spec pts d hd (pts.length + 1)
      (List.replicate pts.length (-1))
      ((List.range pts.length).map fun i => (domCount pts i : Int))
      ((List.range pts.length).filter fun i => domCount pts i = 0) 0
      (by simp) (by simp)
      (by
        intro q hq
        rw [if_neg (by omega)]
        rw [List.getD_eq_getElem?_getD, List.getElem?_replicate, if_pos hq]
        rfl)
      (by
        intro q hq
        rw [map_range_getD _ _ _ hq]
        rw [domCount_eq_card]
        congr 2
        rw [Sset, Finset.filter_true_of_mem]
        intro x _
        exact Nat.zero_le _)
      (by
        intro i
        rw [List.mem_filter, List.mem_range]
        constructor
        · rintro ⟨hi, hc⟩
          rw [decide_eq_true_eq, domCount_eq_zero_iff] at hc
          exact ⟨hi, rankMax_eq_zero_iff.mpr hc⟩
        · rintro ⟨hi, hr⟩
          refine ⟨hi, ?_⟩
          rw [decide_eq_true_eq, domCount_eq_zero_iff]
          exact rankMax_eq_zero_iff.mp hr)
      ((List.nodup_range _).filter _)
      (by omega)
    have hnoneg : (((List.range pts.length).map
        fun q => (rankMax pts d hd q : Int)).any fun v => decide (v < 0)) = false := by
      rw [← Bool.not_eq_true, List.any_eq_true]
      rintro ⟨v, hv, hvlt⟩
      rw [List.mem_map] at hv
      obtain ⟨a, _, hav⟩ := hv
      rw [← hav, decide_eq_true_eq] at hvlt
      omega
    rw [pareto_ranks_max]
    simp only [if_neg hn]
    rw [hkey, hnoneg]
    rfl

/-! ### Bridging the two rankings -/

theorem toL3_len (points : List P3) : ∀ p ∈ points.map toL3, p.length = 3 := by
  intro p hp
  rw [List.mem_map] at hp
  obtain ⟨a, -, hpa⟩ := hp
  rw [← hpa]
  rfl

theorem toL2_len (points : List P2) : ∀ p ∈ points.map toL2, p.length = 2 := by
  intro p hp
  rw [List.mem_map] at hp
  obtain ⟨a, -, hpa⟩ := hp
  rw [← hpa]
  rfl

theorem getD_map_toL3 {points : List P3} {i : Nat} (hi : i < points.length) :
    (points.map toL3).getD i [] = toL3 (points.getD i default) := by
  rw [List.getD_eq_getElem?_getD, List.getD_eq_getElem?_getD,
    List.getElem?_eq_getElem (by simpa using hi), List.getElem?_eq_getElem hi]
  simp

theorem getD_map_toL2 {points : List P2} {i : Nat} (hi : i < points.length) :
    (points.map toL2).getD i [] = toL2 (points.getD i default) := by
  rw [List.getD_eq_getElem?_getD, List.getD_eq_getElem?_getD,
    List.getElem?_eq_getElem (by simpa using hi), List.getElem?_eq_getElem hi]
  simp

theorem R3_iff_Rmax {points : List P3} {i j : Nat} (hi : i < points.length)
    (hj : j < points.length) :
    R3 points i j ↔ Rmax (points.map toL3) i j := by
  rw [R3, Rmax, getD_map_toL3 hi, getD_map_toL3 hj]
  exact dom3_iff_dominates

/-- On a 3D point list, the peeling-side rank equals the counting-side rank
of the corresponding row list. -/
theorem rank3_eq_rankMax (points : List P3) (i : Nat) (hi : i < points.length) :
    rank3 points i = rankMax (points.map toL3) 3 (toL3_len points) i := by
  rw [rank3, rankMax]
  rw [show (points.map toL3).length = points.length from by simp]
  exact rankSpec_congr (fun a b ha hb => R3_iff_Rmax ha hb) _ i le_rfl hi

/-! ### Chain inputs exercising the peeling cutoff -/

/-- `n` strictly decreasing diagonal points: index 0 is the best point and
each later point is dominated by all earlier ones. -/
def chain3 (n : Nat) : List P3 :=
  (List.range n).map fun k =>
    (((n - 1 - k : Nat) : ℚ), ((n - 1 - k : Nat) : ℚ), ((n - 1 - k : Nat) : ℚ))

theorem chain3_length (n : Nat) : (chain3 n).length = n := by
  simp [chain3]

theorem chain3_getD {n k : Nat} (hk : k < n) :
    (chain3 n).getD k default =
      (((n - 1 - k : Nat) : ℚ), ((n - 1 - k : Nat) : ℚ), ((n - 1 - k : Nat) : ℚ)) := by
  rw [chain3, List.getD_eq_getElem?_getD,
    List.getElem?_eq_getElem (by simpa using hk)]
  simp

theorem chain3_R {n i j : Nat} (hi : i < n) (hj : j < n) :
    R3 (chain3 n) j i ↔ j < i := by
  rw [R3, chain3_getD hi, chain3_getD hj, dom3]
  simp only [Bool.and_eq_true, Bool.or_eq_true, decide_eq_true_eq,
    Nat.cast_le, Nat.cast_lt]
  omega

theorem sup_range_succ_fun : ∀ i : Nat, (Finset.range i).sup (fun j => j + 1) = i := by
  intro i
  induction i with
  | zero => simp
  | succ i ih =>
    rw [Finset.range_succ, Finset.sup_insert, ih]
    omega

/-- On the chain, the mathematical rank of index `i` is `i`. -/
theorem rank3_chain (n : Nat) : ∀ i, i < n → rank3 (chain3 n) i = i := by
  intro i
  induction i using Nat.strong_induction_on with
  | _ i ih =>
    intro hi
    rw [rank3, rankSpec_def]
    have hdoms : domsOf (chain3 n).length (R3 (chain3 n)) i = Finset.range i := by
      apply Finset.ext
      intro j
      rw [mem_domsOf, Finset.mem_range, chain3_length]
      constructor
      · rintro ⟨hj, hR⟩
        exact (chain3_R hi hj).mp hR
      · intro hj
        exact ⟨by omega, (chain3_R hi (by omega)).mpr hj⟩
    rw [hdoms]
    have hcongr : (Finset.range i).sup (fun j => rankSpec (chain3 n).length
        (R3 (chain3 n)) (hT3 (chain3 n)) (hI3 (chain3 n)) j + 1) =
        (Finset.range i).sup (fun j => j + 1) := by
      apply Finset.sup_congr rfl
      intro j hj
      have hji : j < i := Finset.mem_range.mp hj
      have hjv := ih j hji (by omega)
      rw [show rankSpec (chain3 n).length (R3 (chain3 n)) (hT3 (chain3 n))
        (hI3 (chain3 n)) j = rank3 (chain3 n) j from rfl, hjv]
    rw [hcongr, sup_range_succ_fun i]

/-! ### Hypervolume estimation -/

theorem countP_flatMap {A B : Type} (l : List A) (f : A → List B) (p : B → Bool) :
    (l.flatMap f).countP p = (l.map fun a => (f a).countP p).sum := by
  induction l with
  | nil => rfl
  | cons a l ih =>
    rw [List.flatMap_cons, List.countP_append, List.map_cons, List.sum_cons, ih]

theorem length_flatMap_sum {A B : Type} (l : List A) (f : A → List B) :
    (l.flatMap f).length = (l.map fun a => (f a).length).sum := by
  induction l with
  | nil => rfl
  | cons a l ih =>
    rw [List.flatMap_cons, List.length_append, List.map_cons, List.sum_cons, ih]

theorem sum_map_range (f : Nat → Nat) (n : Nat) :
    ((List.range n).map f).sum = ∑ i ∈ Finset.range n, f i := by
  induction n with
  | zero => simp
  | succ m ih =>
    rw [List.range_succ, List.map_append, List.sum_append,
      Finset.sum_range_succ, ih]
    simp

/-- The grid fraction as the spec words it: an evenly spaced grid of 26
samples per axis over the unit cube, and the fraction of samples `s`
dominated by at least one clamped input point. -/
def specGridFrac3 (points : List P3) : ℚ :=
  let pts := points.map fun p => (clamp01 p.1, clamp01 p.2.1, clamp01 p.2.2)
  let xs := linspace01 26
  let samples := (List.range 26).flatMap fun a => (List.range 26).flatMap fun b =>
    (List.range 26).map fun c => (xs.getD a 0, xs.getD b 0, xs.getD c 0)
  ((samples.countP fun s => pts.any fun p => covers3 p s : Nat) : ℚ) /
    (samples.length : ℚ)

/-- The 2D grid fraction as the spec words it, with 100 samples per axis. -/
def specGridFrac2 (points : List P2) : ℚ :=
  let pts := points.map fun p => (clamp01 p.1, clamp01 p.2)
  let xs := linspace01 100
  let samples := (List.range 100).flatMap fun a =>
    (List.range 100).map fun b => (xs.getD a 0, xs.getD b 0)
  ((samples.countP fun s => pts.any fun p => covers2 p s : Nat) : ℚ) /
    (samples.length : ℚ)

/-- The meshgrid axis swap (`Y, X, Z = np.meshgrid(..., indexing="ij")` then
`stack([X, Y, Z])`) only permutes the sample list, so any dominated-sample
count is unchanged. -/
theorem countP_hvSamples3 (pr : P3 → Bool) :
    hvSamples3.countP pr =
      ((List.range 26).flatMap fun a => (List.range 26).flatMap fun b =>
        (List.range 26).map fun c =>
          ((linspace01 26).getD a 0, (linspace01 26).getD b 0,
            (linspace01 26).getD c 0)).countP pr := by
  simp only [hvSamples3, countP_flatMap, sum_map_range]
  rw [Finset.sum_comm]

theorem hvSamples3_length : hvSamples3.length = 17576 := by
  simp only [hvSamples3, length_flatMap_sum, List.map_map, Function.comp,
    List.length_map, List.length_range, sum_map_range, Finset.sum_const,
    Finset.card_range, smul_eq_mul]

theorem specSamples3_length :
    ((List.range 26).flatMap fun a => (List.range 26).flatMap fun b =>
      (List.range 26).map fun c =>
        ((linspace01 26).getD a 0, (linspace01 26).getD b 0,
          (linspace01 26).getD c 0)).length = 17576 := by
  simp only [length_flatMap_sum, List.map_map, Function.comp,
    List.length_map, List.length_range, sum_map_range, Finset.sum_const,
    Finset.card_range, smul_eq_mul]

theorem hvSamples2_length : hvSamples2.length = 10000 := by
  simp only [hvSamples2, length_flatMap_sum, List.map_map, Function.comp,
    List.length_map, List.length_range, sum_map_range, Finset.sum_const,
    Finset.card_range, smul_eq_mul]

theorem clamp01_nonneg (x : ℚ) : 0 ≤ clamp01 x := le_max_left 0 _

theorem clamp01_le_one (x : ℚ) : clamp01 x ≤ 1 :=
  max_le (by norm_num) (min_le_left 1 x)

/-- Unfolded form of `_hypervolume_fraction` on two or more points. -/
theorem hypervolume_fraction_two_le {points : List P3} (h : 2 ≤ points.length) :
    hypervolume_fraction points =
      (((hvSamples3.countP fun s => (points.map fun p =>
          (clamp01 p.1, clamp01 p.2.1, clamp01 p.2.2)).any
            fun p => covers3 p s) : Nat) : ℚ) / (hvSamples3.length : ℚ) := by
  rw [hypervolume_fraction]
  rw [if_neg (by
    intro hh
    rw [hh] at h
    exact absurd h (by norm_num))]
  rw [if_neg (by
    rw [List.length_map]
    omega)]

/-- Unfolded form of `_hypervolume_fraction_2d` on two or more points. -/
theorem hypervolume_fraction_2d_two_le {points : List P2}
    (h : 2 ≤ points.length) :
    hypervolume_fraction_2d points =
      (((hvSamples2.countP fun s => (points.map fun p =>
          (clamp01 p.1, clamp01 p.2)).any fun p => covers2 p s) : Nat) : ℚ) /
        (hvSamples2.length : ℚ) := by
  rw [hypervolume_fraction_2d]
  rw [if_neg (by
    intro hh
    rw [hh] at h
    exact absurd h (by norm_num))]
  rw [if_neg (by
    rw [List.length_map]
    omega)]

/-- On two or more points, the implementation equals the spec-worded grid
fraction. -/
theorem hypervolume_eq_specGridFrac3 {points : List P3}
    (h : 2 ≤ points.length) :
    hypervolume_fraction points = specGridFrac3 points := by
  rw [hypervolume_fraction_two_le h, specGridFrac3]
  rw [countP_hvSamples3 (fun s => (points.map fun p =>
    (clamp01 p.1, clamp01 p.2.1, clamp01 p.2.2)).any fun p => covers3 p s)]
  rw [hvSamples3_length, specSamples3_length]

theorem hypervolume_eq_specGridFrac2 {points : List P2}
    (h : 2 ≤ points.length) :
    hypervolume_fraction_2d points = specGridFrac2 points := by
  rw [hypervolume_fraction_2d_two_le h, specGridFrac2]
  rfl

theorem frac_mem_unit {a b : Nat} (hb : 0 < b) (hab : a ≤ b) :
    0 ≤ ((a : ℚ) / (b : ℚ)) ∧ ((a : ℚ) / (b : ℚ)) ≤ 1 := by
  constructor
  · positivity
  · rw [div_le_one (by positivity)]
    exact_mod_cast hab

/-- The hypervolume estimate always lies in the unit interval. -/
theorem hypervolume_fraction_mem_unit (points : List P3) :
    0 ≤ hypervolume_fraction points ∧ hypervolume_fraction points ≤ 1 := by
  rcases Nat.lt_or_ge points.length 2 with hlen | hlen
  · rcases points with _ | ⟨p, _ | ⟨q, rest⟩⟩
    · rw [hypervolume_fraction]
      norm_num
    · rw [hypervolume_fraction]
      rw [if_neg (List.cons_ne_nil p [])]
      rw [if_pos (by simp)]
      simp only [List.map_cons, List.map_nil, List.getD_cons_zero]
      constructor
      · have h1 := clamp01_nonneg p.1
        have h2 := clamp01_nonneg p.2.1
        have h3 := clamp01_nonneg p.2.2
        positivity
      · have h1 := clamp01_le_one p.1
        have h2 := clamp01_le_one p.2.1
        have h3 := clamp01_le_one p.2.2
        have h1n := clamp01_nonneg p.1
        have h2n := clamp01_nonneg p.2.1
        have h3n := clamp01_nonneg p.2.2
        calc clamp01 p.1 * clamp01 p.2.1 * clamp01 p.2.2
            ≤ 1 * 1 * 1 := by
              apply mul_le_mul (mul_le_mul h1 h2 h2n (by norm_num)) h3 h3n
              norm_num
          _ = 1 := by norm_num
    · exfalso
      simp only [List.length_cons] at hlen
      omega
  · rw [hypervolume_fraction_two_le hlen, hvSamples3_length]
    exact frac_mem_unit (by norm_num)
      (by
        have := List.countP_le_length (l := hvSamples3)
          (p := fun s => (points.map fun p =>
            (clamp01 p.1, clamp01 p.2.1, clamp01 p.2.2)).any fun p => covers3 p s)
        rw [hvSamples3_length] at this
        exact this)

/-- The 2D hypervolume estimate always lies in the unit interval. -/
theorem hypervolume_fraction_2d_mem_unit (points : List P2) :
    0 ≤ hypervolume_fraction_2d points ∧ hypervolume_fraction_2d points ≤ 1 := by
  rcases Nat.lt_or_ge points.length 2 with hlen | hlen
  · rcases points with _ | ⟨p, _ | ⟨q, rest⟩⟩
    · rw [hypervolume_fraction_2d]
      norm_num
    · rw [hypervolume_fraction_2d]
      rw [if_neg (List.cons_ne_nil p [])]
      rw [if_pos (by simp)]
      simp only [List.map_cons, List.map_nil, List.getD_cons_zero]
      constructor
      · have h1 := clamp01_nonneg p.1
        have h2 := clamp01_nonneg p.2
        positivity
      · have h1 := clamp01_le_one p.1
        have h2 := clamp01_le_one p.2
        have h1n := clamp01_nonneg p.1
        calc clamp01 p.1 * clamp01 p.2 ≤ 1 * 1 :=
              mul_le_mul h1 h2 (clamp01_nonneg p.2) (by norm_num)
          _ = 1 := by norm_num
    · exfalso
      simp only [List.length_cons] at hlen
      omega
  · rw [hypervolume_fraction_2d_two_le hlen, hvSamples2_length]
    exact frac_mem_unit (by norm_num)
      (by
        have := List.countP_le_length (l := hvSamples2)
          (p := fun s => (points.map fun p =>
            (clamp01 p.1, clamp01 p.2)).any fun p => covers2 p s)
        rw [hvSamples2_length] at this
        exact this)

/-! ### Front existence and mask-level lemmas -/

theorem pareto_nondominated_mask_spec (points : List P3) :
    (pareto_nondominated_mask points).length = points.length ∧
      ∀ q, (pareto_nondominated_mask points).getD q false =
        if q < points.length then maskTarget dom3 points q else false := by
  rw [pareto_nondominated_mask]
  exact maskG_spec dom3 points

theorem pareto_nondominated_mask_2d_spec (points : List P2) :
    (pareto_nondominated_mask_2d points).length = points.length ∧
      ∀ q, (pareto_nondominated_mask_2d points).getD q false =
        if q < points.length then maskTarget dom2 points q else false := by
  rw [pareto_nondominated_mask_2d]
  exact maskG_spec dom2 points

/-- The coordinate sum strictly increases along 3D dominance. -/
theorem dom3_sum_lt {a b : P3} (h : dom3 a b = true) :
    b.1 + b.2.1 + b.2.2 < a.1 + a.2.1 + a.2.2 := by
  rw [dom3] at h
  simp only [Bool.and_eq_true, Bool.or_eq_true, decide_eq_true_eq] at h
  obtain ⟨⟨⟨h1, h2⟩, h3⟩, h4⟩ := h
  rcases h4 with (h4 | h4) | h4 <;> linarith

theorem dom2_sum_lt {a b : P2} (h : dom2 a b = true) :
    b.1 + b.2 < a.1 + a.2 := by
  rw [dom2] at h
  simp only [Bool.and_eq_true, Bool.or_eq_true, decide_eq_true_eq] at h
  obtain ⟨⟨h1, h2⟩, h4⟩ := h
  rcases h4 with h4 | h4 <;> linarith

/-- Every nonempty point list has a non-dominated point: any point of
maximal coordinate sum works. -/
theorem exists_nondominated {A : Type} [Inhabited A] (domf : A → A → Bool)
    (sumf : A → ℚ) (hsum : ∀ a b, domf a b = true → sumf b < sumf a)
    (points : List A) (hne : points ≠ []) :
    ∃ j, j < points.length ∧ maskTarget domf points j = true := by
  have hn : 0 < points.length := List.length_pos.mpr hne
  obtain ⟨j, hjmem, hjmax⟩ := Finset.exists_max_image
    (Finset.range points.length) (fun j => sumf (points.getD j default))
    ⟨0, Finset.mem_range.mpr hn⟩
  rw [Finset.mem_range] at hjmem
  refine ⟨j, hjmem, ?_⟩
  rw [maskTarget_true_iff]
  intro k hk hkj
  cases hcase : domf points[k] (points.getD j default) with
  | false => rfl
  | true =>
    exfalso
    have hk_getD : points[k] = points.getD k default := by
      rw [List.getD_eq_getElem?_getD, List.getElem?_eq_getElem hk]
      rfl
    rw [hk_getD] at hcase
    have hlt := hsum _ _ hcase
    have hle := hjmax k (Finset.mem_range.mpr hk)
    linarith

/-- A dominated point is dominated by some point of the non-dominated
front: any maximal-sum dominator works. -/
theorem exists_front_dominator {A : Type} [Inhabited A] (domf : A → A → Bool)
    (sumf : A → ℚ)
    (htrans : ∀ a b c, domf a b = true → domf b c = true → domf a c = true)
    (hsum : ∀ a b, domf a b = true → sumf b < sumf a)
    (points : List A) (q : Nat)
    (hdom : ∃ j, j < points.length ∧
      domf (points.getD j default) (points.getD q default) = true) :
    ∃ j, j < points.length ∧ maskTarget domf points j = true ∧
      domf (points.getD j default) (points.getD q default) = true := by
  obtain ⟨j0, hj0n, hj0d⟩ := hdom
  have hDne : ((Finset.range points.length).filter fun j =>
      domf (points.getD j default) (points.getD q default) = true).Nonempty :=
    ⟨j0, by
      rw [Finset.mem_filter, Finset.mem_range]
      exact ⟨hj0n, hj0d⟩⟩
  obtain ⟨j, hjD, hjmax⟩ := Finset.exists_max_image _
    (fun j => sumf (points.getD j default)) hDne
  rw [Finset.mem_filter, Finset.mem_range] at hjD
  refine ⟨j, hjD.1, ?_, hjD.2⟩
  rw [maskTarget_true_iff]
  intro k hk hkj
  cases hcase : domf points[k] (points.getD j default) with
  | false => rfl
  | true =>
    exfalso
    have hk_getD : points[k] = points.getD k default := by
      rw [List.getD_eq_getElem?_getD, List.getElem?_eq_getElem hk]
      rfl
    rw [hk_getD] at hcase
    have hkq := htrans _ _ _ hcase hjD.2
    have hkD : k ∈ (Finset.range points.length).filter fun j =>
        domf (points.getD j default) (points.getD q default) = true := by
      rw [Finset.mem_filter, Finset.mem_range]
      exact ⟨hk, hkq⟩
    have hle := hjmax k hkD
    have hlt := hsum _ _ hcase
    linarith

theorem list_eq_of_getD_bool {l1 l2 : List Bool} (hlen : l1.length = l2.length)
    (h : ∀ q, q < l1.length → l1.getD q false = l2.getD q false) : l1 = l2 := by
  apply List.ext_getElem hlen
  intro i h1 h2
  have hh := h i h1
  rw [List.getD_eq_getElem?_getD, List.getD_eq_getElem?_getD,
    List.getElem?_eq_getElem h1, List.getElem?_eq_getElem h2] at hh
  simpa using hh

theorem map_range_getD_bool (f : Nat → Bool) (n q : Nat) (h : q < n) :
    ((List.range n).map f).getD q false = f q := by
  rw [List.getD_eq_getElem?_getD, List.getElem?_eq_getElem (by simpa using h)]
  simp

theorem R2_iff_Rmax {points : List P2} {i j : Nat} (hi : i < points.length)
    (hj : j < points.length) :
    dom2 (points.getD i default) (points.getD j default) = true ↔
      Rmax (points.map toL2) i j := by
  rw [Rmax, getD_map_toL2 hi, getD_map_toL2 hj]
  exact dom2_iff_dominates

theorem hypervolume_fraction_nil : hypervolume_fraction [] = 0 := by
  rw [hypervolume_fraction, if_pos rfl]

theorem hypervolume_fraction_2d_nil : hypervolume_fraction_2d [] = 0 := by
  rw [hypervolume_fraction_2d, if_pos rfl]

theorem hypervolume_fraction_singleton (p : P3) :
    hypervolume_fraction [p] = clamp01 p.1 * clamp01 p.2.1 * clamp01 p.2.2 := by
  rw [hypervolume_fraction, if_neg (List.cons_ne_nil p []),
    if_pos (by simp)]
  simp

theorem hypervolume_fraction_2d_singleton (p : P2) :
    hypervolume_fraction_2d [p] = clamp01 p.1 * clamp01 p.2 := by
  rw [hypervolume_fraction_2d, if_neg (List.cons_ne_nil p []),
    if_pos (by simp)]
  simp

/-! ### Claims -/

/-- C8: `_dominates_max` ("a dominates b iff a ≥ b everywhere and a > b
somewhere") is a strict partial order on equal-dimension rows: irreflexive,
asymmetric, transitive; and equal rows never dominate each other in either
direction. -/
theorem dominates_strict_partial_order :
    (∀ a : Pt, dominates_max a a = false) ∧
    (∀ a b : Pt, dominates_max a b = true → dominates_max b a = false) ∧
    (∀ a b c : Pt, a.length = b.length → b.length = c.length →
      dominates_max a b = true → dominates_max b c = true →
      dominates_max a c = true) ∧
    (∀ a b : Pt, a = b →
      dominates_max a b = false ∧ dominates_max b a = false) := by
  refine ⟨dominates_max_irrefl, fun a b h => dominates_max_asymm h,
    fun a b c h1 h2 h3 h4 => dominates_max_trans h1 h2 h3 h4, ?_⟩
  intro a b hab
  subst hab
  exact ⟨dominates_max_irrefl a, dominates_max_irrefl a⟩

/-- Witness for C8 at concrete rows. -/
theorem dominates_strict_partial_order_witness :
    (dominates_max [(1 : ℚ), 2] [0, 1] = true ∧
      dominates_max [(0 : ℚ), 1] [1, 2] = false) ∧
    (([(2 : ℚ), 2].length = [1, 2].length ∧ [(1 : ℚ), 2].length = [0, 1].length ∧
      dominates_max [(2 : ℚ), 2] [1, 2] = true ∧
      dominates_max [(1 : ℚ), 2] [0, 1] = true) ∧
      dominates_max [(2 : ℚ), 2] [0, 1] = true) := by
  refine ⟨⟨by decide, dominates_strict_partial_order.2.1 _ _ (by decide)⟩,
    ⟨⟨by decide, by decide, by decide, by decide⟩, ?_⟩⟩
  exact dominates_strict_partial_order.2.2.1 [(2 : ℚ), 2] [1, 2] [0, 1]
    (by decide) (by decide) (by decide) (by decide)

/-- C6: the hypervolume functions return 0 on empty input; a single point
gives exactly the product of its clamped coordinates; and the three
concrete singletons evaluate exactly to 1/8, 0 and 1. -/
theorem hypervolume_exact_small_inputs :
    hypervolume_fraction [] = 0 ∧ hypervolume_fraction_2d [] = 0 ∧
    (∀ p : P3, hypervolume_fraction [p] =
      clamp01 p.1 * clamp01 p.2.1 * clamp01 p.2.2) ∧
    (∀ p : P2, hypervolume_fraction_2d [p] = clamp01 p.1 * clamp01 p.2) ∧
    hypervolume_fraction [((1 : ℚ)/2, 1/2, 1/2)] = 1/8 ∧
    hypervolume_fraction [((0 : ℚ), 0, 0)] = 0 ∧
    hypervolume_fraction [((1 : ℚ), 1, 1)] = 1 := by
  refine ⟨hypervolume_fraction_nil, hypervolume_fraction_2d_nil,
    hypervolume_fraction_singleton, hypervolume_fraction_2d_singleton,
    ?_, ?_, ?_⟩
  · rw [hypervolume_fraction_singleton]
    norm_num [clamp01]
  · rw [hypervolume_fraction_singleton]
    norm_num [clamp01]
  · rw [hypervolume_fraction_singleton]
    norm_num [clamp01]

/-- C5: on two or more points both hypervolume functions clamp each
coordinate to `[0,1]` and return the fraction of evenly spaced grid samples
(26 per axis in 3D, 100 per axis in 2D) covered by at least one clamped
point; and the result always lies in `[0,1]`. -/
theorem hypervolume_grid_fraction_spec :
    (∀ points : List P3, 2 ≤ points.length →
      hypervolume_fraction points = specGridFrac3 points) ∧
    (∀ points : List P2, 2 ≤ points.length →
      hypervolume_fraction_2d points = specGridFrac2 points) ∧
    (∀ points : List P3,
      0 ≤ hypervolume_fraction points ∧ hypervolume_fraction points ≤ 1) ∧
    (∀ points : List P2,
      0 ≤ hypervolume_fraction_2d points ∧ hypervolume_fraction_2d points ≤ 1) :=
  ⟨fun _ h => hypervolume_eq_specGridFrac3 h,
    fun _ h => hypervolume_eq_specGridFrac2 h,
    hypervolume_fraction_mem_unit, hypervolume_fraction_2d_mem_unit⟩

/-- Witness for C5 at a concrete two-point input. -/
theorem hypervolume_grid_fraction_spec_witness :
    (2 ≤ ([((1 : ℚ)/2, 1, 1), (1, 1/2, 1)] : List P3).length ∧
      hypervolume_fraction [((1 : ℚ)/2, 1, 1), (1, 1/2, 1)] =
        specGridFrac3 [((1 : ℚ)/2, 1, 1), (1, 1/2, 1)]) ∧
    (2 ≤ ([((1 : ℚ)/2, 1), (1, 1/2)] : List P2).length ∧
      hypervolume_fraction_2d [((1 : ℚ)/2, 1), (1, 1/2)] =
        specGridFrac2 [((1 : ℚ)/2, 1), (1, 1/2)]) :=
  ⟨⟨by decide, hypervolume_grid_fraction_spec.1 _ (by decide)⟩,
    ⟨by decide, hypervolume_grid_fraction_spec.2.1 _ (by decide)⟩⟩

theorem getD_eq_getElem {A : Type} {d : A} {l : List A} {j : Nat}
    (hj : j < l.length) : l.getD j d = l[j] := by
  rw [List.getD_eq_getElem?_getD, List.getElem?_eq_getElem hj]
  rfl

/-- C7: the dedicated 2D front extraction agrees pointwise with the rank-0
front of the dimension-generic counting ranking on the same coordinates. -/
theorem mask2d_eq_counting_front0 (points : List P2) :
    pareto_nondominated_mask_2d points =
      (pareto_ranks_max (points.map toL2)).map fun v => decide (v = 0) := by
  obtain ⟨hmlen, hmval⟩ := pareto_nondominated_mask_2d_spec points
  rw [pareto_ranks_max_spec (points.map toL2) 2 (toL2_len points),
    List.map_map]
  have hn : (points.map toL2).length = points.length := by simp
  apply list_eq_of_getD_bool
  · rw [hmlen]
    simp
  · intro q hq
    rw [hmlen] at hq
    rw [hmval q, if_pos hq,
      map_range_getD_bool _ _ q (by rw [hn]; exact hq)]
    show maskTarget dom2 points q =
      decide ((rankMax (points.map toL2) 2 (toL2_len points) q : Int) = 0)
    rw [Bool.eq_iff_iff, maskTarget_true_iff, decide_eq_true_eq]
    constructor
    · intro hall
      have hzero : rankMax (points.map toL2) 2 (toL2_len points) q = 0 := by
        rw [rankMax_eq_zero_iff]
        intro j hj hR
        rw [hn] at hj
        rw [← R2_iff_Rmax hj hq] at hR
        by_cases hjq : j = q
        · subst hjq
          rw [dom2_irrefl] at hR
          exact Bool.noConfusion hR
        · have hfalse := hall j hj hjq
          rw [getD_eq_getElem hj] at hR
          rw [hfalse] at hR
          exact Bool.noConfusion hR
      rw [hzero]
      rfl
    · intro hzero
      have hz : rankMax (points.map toL2) 2 (toL2_len points) q = 0 := by
        exact_mod_cast hzero
      rw [rankMax_eq_zero_iff] at hz
      intro j hj hjq
      have hd := hz j (by rw [hn]; omega)
      rw [← R2_iff_Rmax (by omega) hq] at hd
      rw [getD_eq_getElem hj] at hd
      cases hc : dom2 points[j] (points.getD q default) with
      | false => rfl
      | true => exact absurd hc hd

/-- C3: the mask marks an index true iff no other point dominates it, and
every index marked false is dominated by some index marked true (a rank-0
front member); this holds for the 3D and the 2D extraction routines. -/
theorem front_marks_exactly_nondominated :
    (∀ (points : List P3) (q : Nat), q < points.length →
      (((pareto_nondominated_mask points).getD q false = true ↔
        ∀ j, j < points.length → j ≠ q →
          dom3 (points.getD j default) (points.getD q default) = false) ∧
      ((pareto_nondominated_mask points).getD q false = false →
        ∃ j, j < points.length ∧
          (pareto_nondominated_mask points).getD j false = true ∧
          dom3 (points.getD j default) (points.getD q default) = true))) ∧
    (∀ (points : List P2) (q : Nat), q < points.length →
      (((pareto_nondominated_mask_2d points).getD q false = true ↔
        ∀ j, j < points.length → j ≠ q →
          dom2 (points.getD j default) (points.getD q default) = false) ∧
      ((pareto_nondominated_mask_2d points).getD q false = false →
        ∃ j, j < points.length ∧
          (pareto_nondominated_mask_2d points).getD j false = true ∧
          dom2 (points.getD j default) (points.getD q default) = true))) := by
  constructor
  · intro points q hq
    obtain ⟨hmlen, hmval⟩ := pareto_nondominated_mask_spec points
    constructor
    · rw [hmval q, if_pos hq, maskTarget_true_iff]
      constructor
      · intro hall j hj hjq
        rw [getD_eq_getElem hj]
        exact hall j hj hjq
      · intro hall j hj hjq
        rw [← getD_eq_getElem hj]
        exact hall j hj hjq
    · intro hfalse
      rw [hmval q, if_pos hq, maskTarget_false_iff] at hfalse
      obtain ⟨j, hj, hjq, hd⟩ := hfalse
      obtain ⟨j2, hj2, hmask, hd2⟩ := exists_front_dominator dom3
        (fun p => p.1 + p.2.1 + p.2.2) (fun _ _ _ h1 h2 => dom3_trans h1 h2)
        (fun _ _ h => dom3_sum_lt h) points q
        ⟨j, hj, by rw [getD_eq_getElem hj]; exact hd⟩
      refine ⟨j2, hj2, ?_, hd2⟩
      rw [hmval j2, if_pos hj2]
      exact hmask
  · intro points q hq
    obtain ⟨hmlen, hmval⟩ := pareto_nondominated_mask_2d_spec points
    constructor
    · rw [hmval q, if_pos hq, maskTarget_true_iff]
      constructor
      · intro hall j hj hjq
        rw [getD_eq_getElem hj]
        exact hall j hj hjq
      · intro hall j hj hjq
        rw [← getD_eq_getElem hj]
        exact hall j hj hjq
    · intro hfalse
      rw [hmval q, if_pos hq, maskTarget_false_iff] at hfalse
      obtain ⟨j, hj, hjq, hd⟩ := hfalse
      obtain ⟨j2, hj2, hmask, hd2⟩ := exists_front_dominator dom2
        (fun p => p.1 + p.2) (fun _ _ _ h1 h2 => dom2_trans h1 h2)
        (fun _ _ h => dom2_sum_lt h) points q
        ⟨j, hj, by rw [getD_eq_getElem hj]; exact hd⟩
      refine ⟨j2, hj2, ?_, hd2⟩
      rw [hmval j2, if_pos hj2]
      exact hmask

/-- Witness for C3 at a concrete dominated input. -/
theorem front_marks_exactly_nondominated_witness :
    1 < ([((1 : ℚ), 0, 0), (0, 0, 0)] : List P3).length ∧
    ((pareto_nondominated_mask [((1 : ℚ), 0, 0), (0, 0, 0)]).getD 1 false = true ↔
      ∀ j, j < ([((1 : ℚ), 0, 0), (0, 0, 0)] : List P3).length → j ≠ 1 →
        dom3 (([((1 : ℚ), 0, 0), (0, 0, 0)] : List P3).getD j default)
          (([((1 : ℚ), 0, 0), (0, 0, 0)] : List P3).getD 1 default) = false) :=
  ⟨by decide,
    (front_marks_exactly_nondominated.1 [((1 : ℚ), 0, 0), (0, 0, 0)] 1 (by decide)).1⟩

/-- C10: every nonempty point list has a nonempty non-dominated front, so
the empty-front fallback in `_pareto_ranks` is unreachable and every peeling
iteration strictly shrinks the remaining index list. -/
theorem nonempty_front_and_strict_shrink :
    (∀ points : List P3, points ≠ [] →
      ∃ j, j < points.length ∧
        (pareto_nondominated_mask points).getD j false = true) ∧
    (∀ (points : List P3) (rem : List Nat), rem ≠ [] →
      peelFront points rem ≠ [] ∧
      (rem.filter fun i => !(peelFront points rem).contains i).length <
        rem.length) := by
  constructor
  · intro points hne
    obtain ⟨j, hj, htar⟩ := exists_nondominated dom3
      (fun p => p.1 + p.2.1 + p.2.2) (fun _ _ h => dom3_sum_lt h) points hne
    obtain ⟨hmlen, hmval⟩ := pareto_nondominated_mask_spec points
    refine ⟨j, hj, ?_⟩
    rw [hmval j, if_pos hj]
    exact htar
  · intro points rem hne
    have hcurne : (rem.map fun i => points.getD i default) ≠ [] := by
      intro hh
      rw [List.map_eq_nil_iff] at hh
      exact hne hh
    obtain ⟨j, hj, htar⟩ := exists_nondominated dom3
      (fun p => p.1 + p.2.1 + p.2.2) (fun _ _ h => dom3_sum_lt h)
      (rem.map fun i => points.getD i default) hcurne
    obtain ⟨hmlen, hmval⟩ :=
      pareto_nondominated_mask_spec (rem.map fun i => points.getD i default)
    have hjrem : j < rem.length := by
      rw [List.length_map] at hj
      exact hj
    have hmem : rem[j] ∈ peelFront points rem := by
      rw [peelFront, mem_zip_filterMap]
      refine ⟨j, hjrem, by rw [hmlen, List.length_map]; exact hjrem, rfl, ?_⟩
      rw [← getD_eq_getElem (by rw [hmlen, List.length_map]; exact hjrem)]
      rw [hmval j, if_pos hj]
      exact htar
    refine ⟨List.ne_nil_of_mem hmem, ?_⟩
    refine List.length_filter_lt_length_iff_exists.mpr
      ⟨rem[j], List.getElem_mem _, ?_⟩
    simp [hmem]

/-- Witness for C10 at concrete inputs. -/
theorem nonempty_front_and_strict_shrink_witness :
    (([((1 : ℚ), 1, 1)] : List P3) ≠ [] ∧
      ∃ j, j < ([((1 : ℚ), 1, 1)] : List P3).length ∧
        (pareto_nondominated_mask [((1 : ℚ), 1, 1)]).getD j false = true) ∧
    (([0] : List Nat) ≠ [] ∧
      peelFront [((1 : ℚ), 1, 1)] [0] ≠ [] ∧
      (([0] : List Nat).filter
        fun i => !(peelFront [((1 : ℚ), 1, 1)] [0]).contains i).length <
        ([0] : List Nat).length) :=
  ⟨⟨by decide, nonempty_front_and_strict_shrink.1 _ (by decide)⟩,
    ⟨by decide, nonempty_front_and_strict_shrink.2 [((1 : ℚ), 1, 1)] [0] (by decide)⟩⟩

theorem rank3_all_equal {points : List P3}
    (heq : ∀ a ∈ points, ∀ b ∈ points, a = b) :
    ∀ q, q < points.length → rank3 points q = 0 := by
  intro q hq
  rw [rank3, rankSpec_eq_zero_iff]
  intro j hj hR
  rw [R3] at hR
  have hjq : points.getD j default = points.getD q default := by
    rw [getD_eq_getElem hj, getD_eq_getElem hq]
    exact heq _ (List.getElem_mem hj) _ (List.getElem_mem hq)
  rw [hjq, dom3_irrefl] at hR
  exact Bool.noConfusion hR

theorem replicate_int_getD {n q : Nat} {v : Int} (h : q < n) :
    (List.replicate n v).getD q 0 = v := by
  rw [List.getD_eq_getElem?_getD, List.getElem?_replicate, if_pos h]
  rfl

/-- C9: empty input yields an empty rank list, a single point gets rank 0,
and an input of pairwise equal points gets all ranks 0, under both ranking
functions. -/
theorem degenerate_inputs_rank_zero :
    pareto_ranks ([] : List P3) = [] ∧
    pareto_ranks_max ([] : List Pt) = [] ∧
    (∀ p : P3, pareto_ranks [p] = [0] ∧ pareto_ranks_max [toL3 p] = [0]) ∧
    (∀ points : List P3, (∀ a ∈ points, ∀ b ∈ points, a = b) →
      pareto_ranks points = List.replicate points.length 0 ∧
      pareto_ranks_max (points.map toL3) =
        List.replicate points.length 0) := by
  refine ⟨?_, rfl, ?_, ?_⟩
  · rw [pareto_ranks]
    rw [show List.range ([] : List P3).length = ([] : List Nat) from rfl]
    rw [peelGo_nil]
    rfl
  · intro p
    constructor
    · obtain ⟨hlen, hval⟩ := pareto_ranks_spec [p]
      apply list_eq_of_getD (by rw [hlen]; rfl)
      intro q hq
      rw [hlen] at hq
      have hq0 : q = 0 := by simp at hq; omega
      subst hq0
      rw [hval 0 (by simp)]
      rw [rank3_all_equal (by
        intro a ha b hb
        rw [List.mem_singleton] at ha hb
        rw [ha, hb]) 0 (by simp)]
      rfl
    · rw [pareto_ranks_max_spec [toL3 p] 3 (by
        intro x hx
        rw [List.mem_singleton] at hx
        rw [hx]
        rfl)]
      have h0 : rankMax [toL3 p] 3 (by
          intro x hx
          rw [List.mem_singleton] at hx
          rw [hx]
          rfl) 0 = 0 := by
        rw [rankMax_eq_zero_iff]
        intro j hj hR
        have hj0 : j = 0 := by simp at hj; omega
        subst hj0
        exact Rmax_irrefl _ 0 hR
      rw [show List.range ([toL3 p] : List Pt).length = [0] from rfl]
      rw [List.map_cons, List.map_nil, h0]
      rfl
  · intro points heq
    have hzero := rank3_all_equal heq
    constructor
    · obtain ⟨hlen, hval⟩ := pareto_ranks_spec points
      apply list_eq_of_getD (by rw [hlen]; simp)
      intro q hq
      rw [hlen] at hq
      rw [hval q hq, hzero q hq, replicate_int_getD hq]
      rfl
    · rw [pareto_ranks_max_spec (points.map toL3) 3 (toL3_len points)]
      have hzero2 : ∀ q, q < points.length →
          rankMax (points.map toL3) 3 (toL3_len points) q = 0 := by
        intro q hq
        rw [← rank3_eq_rankMax points q hq]
        exact hzero q hq
      apply list_eq_of_getD (by simp)
      intro q hq
      simp only [List.length_map, List.length_range] at hq
      rw [map_range_getD _ _ q (by simpa using hq)]
      rw [hzero2 q (by simpa using hq)]
      rw [replicate_int_getD (by simpa using hq)]
      rfl

/-- Witness for C9: duplicate identical points. -/
theorem degenerate_inputs_rank_zero_witness :
    (∀ a ∈ ([((1 : ℚ), 1, 1), (1, 1, 1)] : List P3),
      ∀ b ∈ ([((1 : ℚ), 1, 1), (1, 1, 1)] : List P3), a = b) ∧
    pareto_ranks [((1 : ℚ), 1, 1), (1, 1, 1)] = List.replicate 2 0 :=
  ⟨by decide, (degenerate_inputs_rank_zero.2.2.2 _ (by decide)).1⟩

/-- C4 counterexample: on a 52-point decreasing chain the peeling loop runs
a 51st iteration and assigns rank 51, so it does not abort after 50
iterations (which would cap every rank at 50). -/
theorem peel_rank_exceeds_50_on_chain52 :
    (50 : Int) < (pareto_ranks (chain3 52)).getD 51 0 := by
  obtain ⟨-, hval⟩ := pareto_ranks_spec (chain3 52)
  rw [hval 51 (by rw [chain3_length]; omega)]
  rw [rank3_chain 52 51 (by omega)]
  norm_num

/-- C4 amended: the peeling ranking always returns a complete result (one
integer rank per point, each in `[0, 51]`); the safety cutoff takes effect
once 51 fronts have been assigned (`r > 50` after the increment), replacing
every deeper rank by 51, i.e. every entry is `min (rank, 51)`. -/
theorem peel_cutoff_complete (points : List P3) :
    (pareto_ranks points).length = points.length ∧
    (∀ q, q < points.length → (pareto_ranks points).getD q 0 =
      ((min (rank3 points q) 51 : Nat) : Int)) ∧
    (∀ v ∈ pareto_ranks points, 0 ≤ v ∧ v ≤ 51) := by
  obtain ⟨hlen, hval⟩ := pareto_ranks_spec points
  refine ⟨hlen, hval, ?_⟩
  intro v hv
  obtain ⟨q, hq, hqv⟩ := List.mem_iff_getElem.mp hv
  rw [hlen] at hq
  have := hval q hq
  rw [getD_eq_getElem (by rw [hlen]; exact hq), hqv] at this
  rw [this]
  have hmin : min (rank3 points q) 51 ≤ 51 := min_le_right _ _
  omega

/-- Witness for C4 at a concrete single-point input. -/
theorem peel_cutoff_complete_witness :
    0 < ([((2 : ℚ), 3, 4)] : List P3).length ∧
    (pareto_ranks [((2 : ℚ), 3, 4)]).getD 0 0 =
      ((min (rank3 [((2 : ℚ), 3, 4)] 0) 51 : Nat) : Int) :=
  ⟨by decide, (peel_cutoff_complete [((2 : ℚ), 3, 4)]).2.1 0 (by decide)⟩

/-- C1 counterexample: on a 53-point strictly decreasing chain the peeling
ranking (cut off at 51) and the counting ranking (which reaches 52)
disagree. -/
theorem peel_count_disagree_on_chain53 :
    pareto_ranks (chain3 53) ≠ pareto_ranks_max ((chain3 53).map toL3) := by
  have hlen : (chain3 53).length = 53 := chain3_length 53
  have hpeel : (pareto_ranks (chain3 53)).getD 52 0 = 51 := by
    obtain ⟨-, hval⟩ := pareto_ranks_spec (chain3 53)
    rw [hval 52 (by rw [hlen]; omega)]
    rw [rank3_chain 53 52 (by omega)]
    rfl
  have hcnt : (pareto_ranks_max ((chain3 53).map toL3)).getD 52 0 = 52 := by
    rw [pareto_ranks_max_spec ((chain3 53).map toL3) 3 (toL3_len (chain3 53))]
    rw [map_range_getD _ _ 52 (by rw [List.length_map, hlen]; omega)]
    rw [← rank3_eq_rankMax (chain3 53) 52 (by rw [hlen]; omega)]
    rw [rank3_chain 53 52 (by omega)]
    rfl
  intro h
  rw [h, hcnt] at hpeel
  exact absurd hpeel (by norm_num)

/-- C1 amended: on inputs of at most 52 points (where the 51-front safety
cutoff cannot mis-rank anything) the peeling and the counting rankings
agree exactly. -/
theorem peel_count_agree_of_small (points : List P3)
    (h : points.length ≤ 52) :
    pareto_ranks points = pareto_ranks_max (points.map toL3) := by
  rw [pareto_ranks_max_spec (points.map toL3) 3 (toL3_len points)]
  obtain ⟨hlen, hval⟩ := pareto_ranks_spec points
  apply list_eq_of_getD (by rw [hlen]; simp)
  intro q hq
  rw [hlen] at hq
  rw [hval q hq]
  rw [map_range_getD _ _ q (by rw [List.length_map]; exact hq)]
  rw [← rank3_eq_rankMax points q hq]
  have hrk : rank3 points q < points.length := rank3_lt_len hq
  rw [Nat.min_eq_left (by omega)]

/-- Witness for C1 at a concrete small input. -/
theorem peel_count_agree_witness :
    ([((1 : ℚ), 0, 0), (0, 1, 0), (0, 0, 0)] : List P3).length ≤ 52 ∧
    pareto_ranks [((1 : ℚ), 0, 0), (0, 1, 0), (0, 0, 0)] =
      pareto_ranks_max (([((1 : ℚ), 0, 0), (0, 1, 0), (0, 0, 0)] : List P3).map toL3) :=
  ⟨by decide, peel_count_agree_of_small _ (by decide)⟩

/-- C2 counterexample: in the 53-point chain, point 51 dominates point 52
but the peeling ranking assigns both rank 51 (the cutoff value), so the
peeling rank is not strictly monotone along dominance. -/
theorem rank_monotone_fails_on_chain53 :
    dom3 ((chain3 53).getD 51 default) ((chain3 53).getD 52 default) = true ∧
    ¬ ((pareto_ranks (chain3 53)).getD 51 0 <
        (pareto_ranks (chain3 53)).getD 52 0) := by
  constructor
  · rw [chain3_getD (by omega), chain3_getD (by omega)]
    decide
  · obtain ⟨-, hval⟩ := pareto_ranks_spec (chain3 53)
    rw [hval 51 (by rw [chain3_length]; omega),
      hval 52 (by rw [chain3_length]; omega)]
    rw [rank3_chain 53 51 (by omega), rank3_chain 53 52 (by omega)]
    norm_num

/-- C2 amended: if point `i` dominates point `j`, then `i` gets a strictly
smaller rank than `j` — unconditionally for the counting ranking, and for
the peeling ranking on inputs of at most 52 points (the safety cutoff can
collapse ranks beyond 51 on larger inputs). -/
theorem rank_monotone_of_dominates :
    (∀ (points : List P3) (i j : Nat), i < points.length → j < points.length →
      dom3 (points.getD i default) (points.getD j default) = true →
      (pareto_ranks_max (points.map toL3)).getD i 0 <
        (pareto_ranks_max (points.map toL3)).getD j 0) ∧
    (∀ (points : List P3) (i j : Nat), points.length ≤ 52 →
      i < points.length → j < points.length →
      dom3 (points.getD i default) (points.getD j default) = true →
      (pareto_ranks points).getD i 0 < (pareto_ranks points).getD j 0) := by
  constructor
  · intro points i j hi hj hdom
    rw [pareto_ranks_max_spec (points.map toL3) 3 (toL3_len points)]
    rw [map_range_getD _ _ i (by rw [List.length_map]; exact hi),
      map_range_getD _ _ j (by rw [List.length_map]; exact hj)]
    have hR : Rmax (points.map toL3) i j := by
      rw [← R3_iff_Rmax hi hj]
      exact hdom
    have := @rankMax_lt_of_R (points.map toL3) 3 (toL3_len points) j i
      (by rw [List.length_map]; exact hi) hR
    exact_mod_cast this
  · intro points i j hsmall hi hj hdom
    obtain ⟨hlen, hval⟩ := pareto_ranks_spec points
    rw [hval i hi, hval j hj]
    have hR : R3 points i j := hdom
    have hlt : rank3 points i < rank3 points j := rank3_lt_of_R hi hR
    have hbj : rank3 points j < points.length := rank3_lt_len hj
    rw [Nat.min_eq_left (by omega), Nat.min_eq_left (by omega)]
    exact_mod_cast hlt

/-- Witness for C2 at a concrete two-point input. -/
theorem rank_monotone_of_dominates_witness :
    (0 < ([((1 : ℚ), 1, 1), (0, 0, 0)] : List P3).length ∧
      1 < ([((1 : ℚ), 1, 1), (0, 0, 0)] : List P3).length ∧
      dom3 (([((1 : ℚ), 1, 1), (0, 0, 0)] : List P3).getD 0 default)
        (([((1 : ℚ), 1, 1), (0, 0, 0)] : List P3).getD 1 default) = true) ∧
    (pareto_ranks_max (([((1 : ℚ), 1, 1), (0, 0, 0)] : List P3).map toL3)).getD 0 0 <
      (pareto_ranks_max (([((1 : ℚ), 1, 1), (0, 0, 0)] : List P3).map toL3)).getD 1 0 ∧
    (pareto_ranks [((1 : ℚ), 1, 1), (0, 0, 0)]).getD 0 0 <
      (pareto_ranks [((1 : ℚ), 1, 1), (0, 0, 0)]).getD 1 0 :=
  ⟨⟨by decide, by decide, by decide⟩,
    rank_monotone_of_dominates.1 _ 0 1 (by decide) (by decide) (by decide),
    rank_monotone_of_dominates.2 _ 0 1 (by decide) (by decide) (by decide)
      (by decide)⟩

end Popper
